import Mathlib

/-!
Verification of the text-extraction and correction engine of the
payload-spellcheck plugin, as a shallow embedding in Lean.

Sources embedded here:
* `engine/lexicalParser.ts` (`extractAllTextFromDocWithSources`,
  `extractTextFromLexical`, `extractRecursive`, `extractBlockSegments`),
* `engine/shared.ts` (`SKIP_TYPES`, `SKIP_KEYS`, `PLAIN_TEXT_KEYS`,
  `isLexicalJson`),
* `endpoints/fix.ts` (`fixInLexicalTree`, `applyFixAtOffset`,
  `applyFixToSegment`, `legacyFixSubstring`, `legacyApplyToLexical`,
  `legacyApplyInObject`, `findClosestMatch`, and the pure core of
  `createFixHandler`).

Modelling conventions:
* JavaScript strings are `List Char` (`JStr`); `slice`, `trim`,
  `indexOf`, `includes` and `replace` are given list-level definitions
  matching the JS semantics on the character level.  `trim` is modelled
  over the common whitespace characters (ASCII whitespace plus NBSP and
  BOM); all texts appearing in the repository use only these.
* Documents and Lexical nodes are duck-typed JSON values (`JsonVal`);
  property reads are `jsGet`, truthiness is `jsFalsy`.
* The depth-guarded recursions (`extractRecursive` with
  `depth > maxDepth`, `extractBlockSegments` and `legacyApplyInObject`
  with `depth > 10`) are reparameterised by the remaining budget
  `maxDepth + 1 - depth`, so a guard `depth > maxDepth` becomes the
  budget-0 base case and every recursive call (always at `depth + 1`)
  decreases the budget by one.  The default `maxDepth = 50` of the
  Lexical walk therefore appears as budget 51, and the block walk
  (`depth > 10`) as budget 11.
* `legacyApplyToLexical` has no depth guard in the source; its JS
  recursion is structural on the (acyclic) object graph.  It is made
  total here with a fuel bounded below by `sizeOf` of the node, which
  strictly dominates the recursion depth, so the fuel never runs out on
  the actual argument.
* In-place mutation is modelled functionally: the fix walkers return
  the updated value together with the `fixed` flag and character count.
  When nothing is fixed the source mutates nothing, so the embedding
  returns the original value unchanged in that case.
* The `WeakSet` visited guard of `extractBlockSegments` is an identity
  check; on tree-shaped JSON (every object reachable once) it never
  fires, so it is omitted from the tree model.
* The live node/parent references stored in segment sources
  (`source.data`, `source.parent`) are aliases into the document; they
  are modelled as paths into the document value, with `getPath` and
  `setPath` playing the role of reading through and writing through the
  alias.
-/

/- ─── JavaScript string primitives ──────────────────────────────── -/

abbrev JStr := List Char

def jstr (s : String) : JStr := s.data

/-- Whitespace recognised by the model of `String.prototype.trim`:
ASCII whitespace, NBSP and BOM (the characters that can occur in the
texts this repository handles). -/
def jsWhitespace (c : Char) : Bool :=
  c == ' ' || c == '\t' || c == '\n' || c == '\r' ||
  c == Char.ofNat 11 || c == Char.ofNat 12 || c == Char.ofNat 160 ||
  c == Char.ofNat 0xFEFF

/-- Model of `s.trimStart()`. -/
def trimStartJ (s : JStr) : JStr := s.dropWhile jsWhitespace

/-- Model of `s.trim()`. -/
def trimJ (s : JStr) : JStr :=
  ((s.dropWhile jsWhitespace).reverse.dropWhile jsWhitespace).reverse

/-- Model of `s.slice(a, b)` for non-negative indices. -/
def jsSlice (s : JStr) (a b : Nat) : JStr := (s.take b).drop a

/-- Model of `s.slice(0, i) + rep + s.slice(i + l)`: splice `rep` over
the range `[i, i + l)` of `s`. -/
def spliceAt (s : JStr) (i l : Nat) (rep : JStr) : JStr :=
  s.take i ++ rep ++ s.drop (i + l)

/-- `needle` occurs in `text` starting exactly at index `i`. -/
def occAt (text needle : JStr) (i : Nat) : Bool :=
  needle.isPrefixOf (text.drop i)

/-- Fuel-driven scan for the first occurrence at index `≥ i`. -/
def indexOfGo (text needle : JStr) : Nat → Nat → Option Nat
  | _, 0 => none
  | i, fuel + 1 =>
    if occAt text needle i then some i
    else indexOfGo text needle (i + 1) fuel

/-- Model of `text.indexOf(needle, start)` (`none` for `-1`). -/
def indexOfFrom (text needle : JStr) (start : Nat) : Option Nat :=
  indexOfGo text needle start (text.length + 1 - start)

/-- Model of `s.includes(pat)`. -/
def jsIncludes (s pat : JStr) : Bool := (indexOfFrom s pat 0).isSome

/-- Model of `s.replace(pat, rep)` with a string pattern: replace the
first occurrence only. -/
def jsReplaceFirst (s pat rep : JStr) : JStr :=
  match indexOfFrom s pat 0 with
  | none => s
  | some i => s.take i ++ rep ++ s.drop (i + pat.length)

/- ─── Duck-typed JSON values ─────────────────────────────────────── -/

/-- A JSON value as the JS engine sees it: the documents, blocks and
Lexical nodes of the plugin are all values of this one type. -/
inductive JsonVal : Type where
  | str (s : JStr)
  | num (n : Int)
  | bool (b : Bool)
  | null
  | arr (items : List JsonVal)
  | obj (fields : List (String × JsonVal))

mutual
/-- Structural size of a JSON value; it strictly dominates the depth of
the value, so it bounds the recursion depth of any walk of the tree. -/
def sizeJ : JsonVal → Nat
  | .str _ => 1
  | .num _ => 1
  | .bool _ => 1
  | .null => 1
  | .arr items => 1 + sizeJList items
  | .obj fields => 1 + sizeJFields fields

def sizeJList : List JsonVal → Nat
  | [] => 0
  | v :: rest => 1 + sizeJ v + sizeJList rest

def sizeJFields : List (String × JsonVal) → Nat
  | [] => 0
  | (_, v) :: rest => 1 + sizeJ v + sizeJFields rest
end

/-- Property read `v[k]`: `none` models `undefined`. -/
def jsGet : JsonVal → String → Option JsonVal
  | .obj fields, k => fields.lookup k
  | _, _ => none

/-- JS falsiness of a JSON value (`null`, `false`, `0`, `""`). -/
def jsFalsy : JsonVal → Bool
  | .null => true
  | .bool b => !b
  | .num n => n == 0
  | .str s => s.isEmpty
  | _ => false

/-- Update the (present) key `k` of an object in place; on the shapes
the engine touches the key always exists, so no insertion case is
needed. -/
def setFieldAux (k : String) (v : JsonVal) :
    List (String × JsonVal) → List (String × JsonVal)
  | [] => []
  | (k2, v2) :: rest =>
    if k2 == k then (k2, v) :: rest else (k2, v2) :: setFieldAux k v rest

def setField : JsonVal → String → JsonVal → JsonVal
  | .obj fields, k, v => .obj (setFieldAux k v fields)
  | node, _, _ => node

/-- A step of a path into a document (model of the alias references the
extractor stores in segment sources). -/
inductive PathElem : Type where
  | keyStep (k : String)
  | idxStep (i : Nat)
deriving DecidableEq

abbrev JsonPath := List PathElem

def getPath : JsonVal → JsonPath → Option JsonVal
  | v, [] => some v
  | v, .keyStep k :: rest => (jsGet v k).bind (fun c => getPath c rest)
  | .arr items, .idxStep i :: rest => (items.get? i).bind (fun c => getPath c rest)
  | _, .idxStep _ :: _ => none

def setPath : JsonVal → JsonPath → JsonVal → JsonVal
  | _, [], v => v
  | node, .keyStep k :: rest, v =>
    match jsGet node k with
    | some c => setField node k (setPath c rest v)
    | none => node
  | .arr items, .idxStep i :: rest, v =>
    match items.get? i with
    | some c => .arr (items.set i (setPath c rest v))
    | none => .arr items
  | node, .idxStep _ :: _, _ => node

/- ─── Shared constants (engine/shared.ts) ────────────────────────── -/

/-- Node types to skip (their text content is not natural language). -/
def SKIP_TYPES : List String := ["code", "code-block", "codeBlock"]

/-- Keys to skip when traversing document blocks (non-content fields). -/
def SKIP_KEYS : List String :=
  ["id", "_order", "_parent_id", "_path", "_locale", "_uuid",
   "blockType", "blockName", "icon", "color", "link", "link_url",
   "enable_link", "image", "media", "form", "form_id", "rating",
   "size", "position", "relationTo", "value", "updatedAt", "createdAt",
   "_status", "slug", "meta", "publishedAt", "populatedAuthors"]

/-- Keys that contain plain-text content worth checking. -/
def PLAIN_TEXT_KEYS : List String :=
  ["title", "description", "heading", "subheading", "subtitle",
   "quote", "author", "role", "label", "link_label", "block_name",
   "caption", "alt", "text", "summary", "excerpt"]

/-- `value` looks like a Lexical JSON structure: it has an object-typed
`root`, or an array `children` together with a `type` key. -/
def isLexicalJson (value : JsonVal) : Bool :=
  (match jsGet value "root" with
   | some (.obj _) => true
   | some (.arr _) => true
   | _ => false) ||
  ((match jsGet value "children" with
    | some (.arr _) => true
    | _ => false) && (jsGet value "type").isSome)

/- ─── Lexical node accessors ─────────────────────────────────────── -/

/-- Test `node.type === t` for a string tag `t`. -/
def nodeTypeIs (node : JsonVal) (t : String) : Bool :=
  match jsGet node "type" with
  | some (.str s) => s == t.data
  | _ => false

/-- `node.type && SKIP_TYPES.has(node.type)`. -/
def skipTypeNode (node : JsonVal) : Bool :=
  match jsGet node "type" with
  | some (.str s) => SKIP_TYPES.any (fun t => s == t.data)
  | _ => false

/-- `node.type === 'text' && typeof node.text === 'string'`, returning
the text when the condition holds. -/
def nodeTextIf (node : JsonVal) : Option JStr :=
  if nodeTypeIs node "text" then
    match jsGet node "text" with
    | some (.str s) => some s
    | _ => none
  else none

/-- The `children` of a node when they are an array, else `[]` (both
`node.children || []` and the `Array.isArray(node.children)` guard
iterate exactly these elements). -/
def childrenArr (node : JsonVal) : List JsonVal :=
  match jsGet node "children" with
  | some (.arr cs) => cs
  | _ => []

/-- `node.type` is one of the block-level tags that append a newline. -/
def isBlockTag (node : JsonVal) : Bool :=
  nodeTypeIs node "paragraph" || nodeTypeIs node "heading" ||
  nodeTypeIs node "listitem"

/- ─── Rich-text extraction (lexicalParser.ts) ────────────────────── -/

/-- `extractRecursive(node, depth, maxDepth)` with the budget
`b = maxDepth + 1 - depth`; the guard `depth > maxDepth` is the budget-0
case, and every recursive call of the source (always at `depth + 1`)
becomes a call at budget `b - 1`. -/
def extractRecursive : JsonVal → Nat → JStr
  | _, 0 => []
  | node, b + 1 =>
    if jsFalsy node then []
    else
      match node with
      | .arr items => (items.map (fun it => extractRecursive it b)).flatten
      | .obj _ =>
        if skipTypeNode node then []
        else
          let t0 : JStr := (nodeTextIf node).getD []
          if isBlockTag node then
            t0 ++ ((childrenArr node).map (fun c => extractRecursive c b)).flatten
               ++ ['\n']
          else
            t0 ++ ((childrenArr node).map (fun c => extractRecursive c b)).flatten
               ++ (match jsGet node "root" with
                   | some r => extractRecursive r b
                   | none => [])
      | _ => []

/-- `extractTextFromLexical(node)` with the default `maxDepth = 50`,
hence budget 51. -/
def extractTextFromLexical (node : JsonVal) : JStr :=
  trimJ (extractRecursive node 51)

/- ─── Segment extraction (lexicalParser.ts) ──────────────────────── -/

inductive SourceRef : Type where
  | titleSrc
  | lexicalSrc (path : JsonPath) (topField : String)
  | plainSrc (path : JsonPath) (key : String) (topField : String)
deriving DecidableEq

structure TextSegment where
  text : JStr
  source : SourceRef
deriving DecidableEq

structure ExtractedDoc where
  fullText : JStr
  segments : List TextSegment

/-- Model of `texts.join('\n')`. -/
def joinNL : List JStr → JStr
  | [] => []
  | [t] => t
  | t :: rest => t ++ '\n' :: joinNL rest

/-- The structural-token guard of `extractBlockSegments`: model of
`/^(https?:|\/|#|\d{4}-\d{2}|[0-9a-f-]{36}|data:|mailto:)/i.test(value)`. -/
def startsWithCI (s : JStr) (p : String) : Bool :=
  (s.take p.length).map Char.toLower == p.data

def isHexDashChar (c : Char) : Bool :=
  c.isDigit || ('a' ≤ c && c ≤ 'f') || ('A' ≤ c && c ≤ 'F') || c == '-'

def structuralTokenStart (s : JStr) : Bool :=
  startsWithCI s "http:" || startsWithCI s "https:" ||
  (match s with
   | c :: _ => c == '/' || c == '#'
   | [] => false) ||
  (match s with
   | c1 :: c2 :: c3 :: c4 :: c5 :: c6 :: c7 :: _ =>
     c1.isDigit && c2.isDigit && c3.isDigit && c4.isDigit &&
     c5 == '-' && c6.isDigit && c7.isDigit
   | _ => false) ||
  (decide (36 ≤ s.length) && (s.take 36).all isHexDashChar) ||
  startsWithCI s "data:" || startsWithCI s "mailto:"

/-- A character the JS regex `.` matches (no line terminators). -/
def dotChar (c : Char) : Bool :=
  !(c == '\n' || c == '\r' || c == Char.ofNat 0x2028 || c == Char.ofNat 0x2029)

/-- Model of `/^X.*Y$/.test(s)` for delimiters `X`, `Y`. -/
def delimitedBy (o c : Char) (s : JStr) : Bool :=
  match s with
  | [] => false
  | first :: rest =>
    first == o && !rest.isEmpty && rest.getLast? == some c &&
    rest.dropLast.all dotChar

/-- Model of `/^\x7b.*\x7d$/.test(value) || /^\[.*\]$/.test(value)`. -/
def jsonBlobLike (s : JStr) : Bool :=
  delimitedBy (Char.ofNat 123) (Char.ofNat 125) s ||
  delimitedBy (Char.ofNat 91) (Char.ofNat 93) s

/-- `extractBlockSegments(obj, segments, visited, topField, depth)` with
budget `b = 11 - depth` (guard `depth > 10`); returns the segments this
subtree pushes, with `path` the position of `obj` inside the document. -/
def extractBlockSegments : JsonVal → JsonPath → String → Nat → List TextSegment
  | _, _, _, 0 => []
  | node, path, topField, b + 1 =>
    if jsFalsy node then []
    else
      match node with
      | .arr items =>
        (items.enum.map (fun p =>
          extractBlockSegments p.2 (path ++ [.idxStep p.1]) topField b)).flatten
      | .obj fields =>
        (fields.map (fun kv =>
          let k := kv.1
          let v := kv.2
          if SKIP_KEYS.contains k then []
          else if isLexicalJson v then
            [⟨extractTextFromLexical v, .lexicalSrc (path ++ [.keyStep k]) topField⟩]
          else
            (match v with
             | .str s =>
               if decide (2 < s.length) && decide (s.length < 5000) then
                 if structuralTokenStart s then []
                 else if jsonBlobLike s then []
                 else if PLAIN_TEXT_KEYS.contains k then
                   [⟨s, .plainSrc path k topField⟩]
                 else []
               else []
             | _ => []) ++
            (match v with
             | .obj _ => extractBlockSegments v (path ++ [.keyStep k]) topField b
             | .arr _ => extractBlockSegments v (path ++ [.keyStep k]) topField b
             | _ => []))).flatten
      | _ => []

/-- `extractAllTextFromDocWithSources(doc, contentField)`: title, hero
rich text, the content field, then layout blocks; empty segments are
filtered out and the full text is the newline join, trimmed. -/
def extractAllTextFromDocWithSources (doc : JsonVal) (contentField : String) :
    ExtractedDoc :=
  let titleSegs : List TextSegment :=
    match jsGet doc "title" with
    | some (.str t) => if t.isEmpty then [] else [⟨t, .titleSrc⟩]
    | _ => []
  let heroSegs : List TextSegment :=
    match jsGet doc "hero" with
    | some h =>
      match jsGet h "richText" with
      | some rt =>
        if jsFalsy rt then []
        else [⟨extractTextFromLexical rt,
               .lexicalSrc [.keyStep "hero", .keyStep "richText"] "hero"⟩]
      | none => []
    | none => []
  let contentSegs : List TextSegment :=
    match jsGet doc contentField with
    | some c =>
      if !jsFalsy c && isLexicalJson c then
        [⟨extractTextFromLexical c, .lexicalSrc [.keyStep contentField] contentField⟩]
      else []
    | none => []
  let layoutSegs : List TextSegment :=
    match jsGet doc "layout" with
    | some (.arr blocks) =>
      (blocks.enum.map (fun p =>
        extractBlockSegments p.2 [.keyStep "layout", .idxStep p.1] "layout" 11)).flatten
    | _ => []
  let rawSegments := titleSegs ++ heroSegs ++ contentSegs ++ layoutSegs
  let segments := rawSegments.filter (fun s => !s.text.isEmpty)
  let fullText := trimJ (joinNL (segments.map (fun s => s.text)))
  ⟨fullText, segments⟩

/- ─── Offset-based fix (fix.ts: fixInLexicalTree) ────────────────── -/

structure FixOut where
  val : JsonVal
  fixed : Bool
  chars : Nat

structure ListFixOut where
  items : List JsonVal
  fixed : Bool
  chars : Nat

/-- One `for`-loop of `fixInLexicalTree` over a list of nodes: apply
`f` to each element at the running position until one reports `fixed`;
elements after the fix (and, as in the source, all elements when nothing
is fixed) stay untouched, and `chars` accumulates up to the fix point. -/
def fixListWith (f : JsonVal → Nat → FixOut) : List JsonVal → Nat → ListFixOut
  | [], _ => ⟨[], false, 0⟩
  | it :: rest, pos =>
    let r := f it pos
    if r.fixed then ⟨r.val :: rest, true, r.chars⟩
    else
      let rr := fixListWith f rest (pos + r.chars)
      if rr.fixed then ⟨it :: rr.items, true, r.chars + rr.chars⟩
      else ⟨it :: rest, false, r.chars + rr.chars⟩

/-- Replace the `children` array of a node (the in-place mutation of a
fixed child list); when the node has no `children` array nothing was
iterated, so the node is returned unchanged. -/
def updChildren (node : JsonVal) (cs : List JsonVal) : JsonVal :=
  match jsGet node "children" with
  | some (.arr _) => setField node "children" (.arr cs)
  | _ => node

/-- `fixInLexicalTree(node, targetOffset, targetLength, replacement,
currentPos, depth, maxDepth)` with budget `b = maxDepth + 1 - depth`
(default `maxDepth = 50`, so top-level budget 51).  Walks in the exact
order of `extractRecursive`, counting characters, and splices the text
node whose span contains `targetOffset`. -/
def fixInLexicalTree : JsonVal → Nat → Nat → JStr → Nat → Nat → FixOut
  | node, _, _, _, _, 0 => ⟨node, false, 0⟩
  | node, tgt, len, rep, pos, b + 1 =>
    if jsFalsy node then ⟨node, false, 0⟩
    else
      match node with
      | .arr items =>
        let r := fixListWith (fun it p => fixInLexicalTree it tgt len rep p b) items pos
        if r.fixed then ⟨.arr r.items, true, r.chars⟩ else ⟨node, false, r.chars⟩
      | .obj _ =>
        if skipTypeNode node then ⟨node, false, 0⟩
        else
          match nodeTextIf node with
          | some s =>
            if pos ≤ tgt && tgt < pos + s.length then
              let s2 := spliceAt s (tgt - pos) len rep
              ⟨setField node "text" (.str s2), true, s2.length⟩
            else ⟨node, false, s.length⟩
          | none =>
            if isBlockTag node then
              let r := fixListWith (fun it p => fixInLexicalTree it tgt len rep p b)
                         (childrenArr node) pos
              if r.fixed then ⟨updChildren node r.items, true, r.chars + 1⟩
              else ⟨node, false, r.chars + 1⟩
            else
              let rc := fixListWith (fun it p => fixInLexicalTree it tgt len rep p b)
                          (childrenArr node) pos
              if rc.fixed then ⟨updChildren node rc.items, true, rc.chars⟩
              else
                match jsGet node "root" with
                | some rt =>
                  let rr := fixInLexicalTree rt tgt len rep (pos + rc.chars) b
                  if rr.fixed then ⟨setField node "root" rr.val, true, rc.chars + rr.chars⟩
                  else ⟨node, false, rc.chars + rr.chars⟩
                | none => ⟨node, false, rc.chars⟩
      | _ => ⟨node, false, 0⟩

/- ─── Applying a located fix (fix.ts: applyFixToSegment/AtOffset) ── -/

structure ApplyRes where
  doc : JsonVal
  fixed : Bool
  modifiedField : Option String

/-- `applyFixToSegment(segment, localOffset, targetLength, replacement,
docClone)`: dispatch on the segment source and splice. -/
def applyFixToSegment (docClone : JsonVal) (segment : TextSegment)
    (localOffset targetLength : Nat) (replacement : JStr) : ApplyRes :=
  match segment.source with
  | .titleSrc =>
    let title : JStr :=
      match jsGet docClone "title" with
      | some (.str t) => t
      | _ => []
    ⟨setField docClone "title" (.str (spliceAt title localOffset targetLength replacement)),
     true, some "title"⟩
  | .lexicalSrc path topField =>
    match getPath docClone path with
    | some data =>
      let r := fixInLexicalTree data localOffset targetLength replacement 0 51
      if r.fixed then ⟨setPath docClone path r.val, true, some topField⟩
      else ⟨docClone, false, none⟩
    | none => ⟨docClone, false, none⟩
  | .plainSrc path key topField =>
    match getPath docClone path with
    | some parent =>
      let currentVal : JStr :=
        match jsGet parent key with
        | some (.str s) => s
        | _ => []
      ⟨setPath docClone path
         (setField parent key (.str (spliceAt currentVal localOffset targetLength replacement))),
       true, some topField⟩
    | none => ⟨docClone, false, none⟩

/-- The segment walk of `applyFixAtOffset`: running position `pos`,
each segment spans `[pos, pos + text.length)` and is followed by one
separator character. -/
def applyFixLoop (docClone : JsonVal) (rawTargetOffset targetLength : Nat)
    (replacement : JStr) : List TextSegment → Nat → ApplyRes
  | [], _ => ⟨docClone, false, none⟩
  | segment :: rest, pos =>
    let segEnd := pos + segment.text.length
    if pos ≤ rawTargetOffset && rawTargetOffset < segEnd then
      applyFixToSegment docClone segment (rawTargetOffset - pos) targetLength replacement
    else
      applyFixLoop docClone rawTargetOffset targetLength replacement rest (segEnd + 1)

/-- `applyFixAtOffset(segments, fullText, targetOffset, targetLength,
replacement, docClone)`: add the trim delta of the raw joined text back
to the offset, then walk the segments. -/
def applyFixAtOffset (docClone : JsonVal) (segments : List TextSegment)
    (targetOffset targetLength : Nat) (replacement : JStr) : ApplyRes :=
  let rawJoined := joinNL (segments.map (fun s => s.text))
  let trimOffset := rawJoined.length - (trimStartJ rawJoined).length
  let rawTargetOffset := targetOffset + trimOffset
  applyFixLoop docClone rawTargetOffset targetLength replacement segments 0

/- ─── Legacy substring fix (fix.ts: legacy*) ─────────────────────── -/

/-- A `for`-loop applying `f` to elements until one reports done; the
source mutates only the found element, so everything else is returned
unchanged. -/
def legacySeqLoop (f : JsonVal → JsonVal × Bool) : List JsonVal → List JsonVal × Bool
  | [] => ([], false)
  | it :: rest =>
    let r := f it
    if r.2 then (r.1 :: rest, true)
    else
      let rr := legacySeqLoop f rest
      if rr.2 then (it :: rr.1, true) else (it :: rest, false)

/-- `legacyApplyToLexical(node, original, replacement, state)` driven by
fuel.  The source recursion has no depth guard and is structural on the
acyclic object graph; `sizeOf node` strictly dominates its depth, so the
wrapper below never exhausts the fuel. -/
def legacyLexGo : Nat → JsonVal → JStr → JStr → JsonVal × Bool
  | 0, node, _, _ => (node, false)
  | fuel + 1, node, original, replacement =>
    if jsFalsy node then (node, false)
    else
      match node with
      | .arr items =>
        let r := legacySeqLoop (fun it => legacyLexGo fuel it original replacement) items
        if r.2 then (.arr r.1, true) else (node, false)
      | .obj _ =>
        let replaced : Option JsonVal :=
          match nodeTextIf node with
          | some s =>
            if jsIncludes s original then
              some (setField node "text" (.str (jsReplaceFirst s original replacement)))
            else none
          | none => none
        match replaced with
        | some node2 => (node2, true)
        | none =>
          let rc := legacySeqLoop (fun it => legacyLexGo fuel it original replacement)
                      (childrenArr node)
          if rc.2 then (updChildren node rc.1, true)
          else
            match jsGet node "root" with
            | some rt =>
              let rr := legacyLexGo fuel rt original replacement
              if rr.2 then (setField node "root" rr.1, true) else (node, false)
            | none => (node, false)
      | _ => (node, false)

def legacyApplyToLexical (node : JsonVal) (original replacement : JStr) :
    JsonVal × Bool :=
  legacyLexGo (sizeJ node) node original replacement

/-- The per-key body of the `Object.entries` loop of
`legacyApplyInObject`, parameterised by the recursive call `fObj` at the
next depth. -/
def legacyFieldLoop (fObj : JsonVal → JsonVal × Bool) (original replacement : JStr) :
    List (String × JsonVal) → List (String × JsonVal) × Bool
  | [] => ([], false)
  | (k, v) :: rest =>
    let isRootObj : Bool :=
      match v with
      | .obj _ =>
        (match jsGet v "root" with
         | some (.obj _) => true
         | some (.arr _) => true
         | _ => false)
      | _ => false
    if isRootObj then
      let r := legacyApplyToLexical v original replacement
      if r.2 then ((k, r.1) :: rest, true)
      else
        let rr := legacyFieldLoop fObj original replacement rest
        if rr.2 then ((k, v) :: rr.1, true) else ((k, v) :: rest, false)
    else
      let strHit : Option JsonVal :=
        match v with
        | .str s =>
          if jsIncludes s original && PLAIN_TEXT_KEYS.contains k then
            some (.str (jsReplaceFirst s original replacement))
          else none
        | _ => none
      match strHit with
      | some v2 => ((k, v2) :: rest, true)
      | none =>
        let objStep : JsonVal × Bool :=
          match v with
          | .obj _ => fObj v
          | .arr _ => fObj v
          | _ => (v, false)
        if objStep.2 then ((k, objStep.1) :: rest, true)
        else
          let rr := legacyFieldLoop fObj original replacement rest
          if rr.2 then ((k, v) :: rr.1, true) else ((k, v) :: rest, false)

/-- `legacyApplyInObject(obj, original, replacement, state, depth)` with
budget `b = 11 - depth` (guard `depth > 10`). -/
def legacyApplyInObject : Nat → JsonVal → JStr → JStr → JsonVal × Bool
  | 0, node, _, _ => (node, false)
  | b + 1, node, original, replacement =>
    if jsFalsy node then (node, false)
    else
      match node with
      | .arr items =>
        let r := legacySeqLoop (fun it => legacyApplyInObject b it original replacement) items
        if r.2 then (.arr r.1, true) else (node, false)
      | .obj fields =>
        let r := legacyFieldLoop (fun v => legacyApplyInObject b v original replacement)
                   original replacement fields
        if r.2 then (.obj r.1, true) else (node, false)
      | _ => (node, false)

/-- `legacyFixSubstring(docClone, original, replacement, contentField)`:
title, then hero rich text, then the content field, then layout blocks;
first match wins, nothing is touched on failure. -/
def legacyFixSubstring (docClone : JsonVal) (original replacement : JStr)
    (contentField : String) : ApplyRes :=
  let titleHit : Option JStr :=
    match jsGet docClone "title" with
    | some (.str t) => if jsIncludes t original then some t else none
    | _ => none
  match titleHit with
  | some t =>
    ⟨setField docClone "title" (.str (jsReplaceFirst t original replacement)),
     true, some "title"⟩
  | none =>
    let heroStep : Option ApplyRes :=
      match jsGet docClone "hero" with
      | some h =>
        match jsGet h "richText" with
        | some rt =>
          if jsFalsy rt then none
          else
            let r := legacyApplyToLexical rt original replacement
            if r.2 then
              some ⟨setField docClone "hero" (setField h "richText" r.1), true, some "hero"⟩
            else none
        | none => none
      | none => none
    match heroStep with
    | some res => res
    | none =>
      let contentStep : Option ApplyRes :=
        match jsGet docClone contentField with
        | some c =>
          if jsFalsy c then none
          else
            let r := legacyApplyToLexical c original replacement
            if r.2 then
              some ⟨setField docClone contentField r.1, true, some contentField⟩
            else none
        | none => none
      match contentStep with
      | some res => res
      | none =>
        match jsGet docClone "layout" with
        | some (.arr blocks) =>
          let r := legacySeqLoop (fun blk => legacyApplyInObject 11 blk original replacement)
                     blocks
          if r.2 then ⟨setField docClone "layout" (.arr r.1), true, some "layout"⟩
          else ⟨docClone, false, none⟩
        | _ => ⟨docClone, false, none⟩

/- ─── Search-based offset correction (fix.ts: findClosestMatch) ──── -/

/-- The `while (idx !== -1)` collection loop of `findClosestMatch`,
driven by fuel (the found index grows strictly, so `text.length + 1`
steps always suffice). -/
def collectOccurrences (text needle : JStr) : Nat → Nat → List Nat
  | _, 0 => []
  | start, fuel + 1 =>
    match indexOfFrom text needle start with
    | none => []
    | some i => i :: collectOccurrences text needle (i + 1) fuel

def occurrences (text needle : JStr) : List Nat :=
  collectOccurrences text needle 0 (text.length + 1)

/-- `findClosestMatch(text, needle, expectedOffset)`: all occurrences,
then the one closest to `expectedOffset` chosen by a `reduce` that keeps
the incumbent on ties (`none` models `-1`). -/
def findClosestMatch (text needle : JStr) (expectedOffset : Nat) : Option Nat :=
  if needle.isEmpty then none
  else
    match occurrences text needle with
    | [] => none
    | [i] => some i
    | i :: rest =>
      some (rest.foldl (fun closest curr =>
        if Nat.dist curr expectedOffset < Nat.dist closest expectedOffset then curr
        else closest) i)

/- ─── The fix handler core (fix.ts: createFixHandler) ────────────── -/

inductive FixMethod : Type where
  | offsetM
  | searchM
  | legacyM
deriving DecidableEq

structure FixOutcome where
  doc : JsonVal
  fixed : Bool
  modifiedField : Option String
  method : FixMethod

/-- The pure document-transformation core of `createFixHandler` (after
request validation and document fetch): extract once, try the exact
offset, then drift search, then the legacy substring fallback. -/
def fixDocument (doc : JsonVal) (original replacement : JStr)
    (offset length : Option Nat) (contentField : String) : FixOutcome :=
  let ed := extractAllTextFromDocWithSources doc contentField
  match offset, length with
  | some off, some len =>
    let first : ApplyRes × FixMethod :=
      if jsSlice ed.fullText off (off + len) == original then
        (applyFixAtOffset doc ed.segments off len replacement, .offsetM)
      else
        match findClosestMatch ed.fullText original off with
        | some foundOffset =>
          (applyFixAtOffset doc ed.segments foundOffset original.length replacement,
           .searchM)
        | none => (⟨doc, false, none⟩, .legacyM)
    if first.1.fixed then ⟨first.1.doc, first.1.fixed, first.1.modifiedField, first.2⟩
    else
      let lr := legacyFixSubstring doc original replacement contentField
      if lr.fixed then ⟨lr.doc, lr.fixed, lr.modifiedField, .legacyM⟩
      else ⟨lr.doc, lr.fixed, lr.modifiedField, first.2⟩
  | _, _ =>
    let lr := legacyFixSubstring doc original replacement contentField
    ⟨lr.doc, lr.fixed, lr.modifiedField, .legacyM⟩

/- ─── Derived notions used to state the claims ───────────────────── -/

/-- Start of segment `k` inside the raw joined text: the cumulative
length of the prior segments plus one separator character each. -/
def segStart : List TextSegment → Nat → Nat
  | _, 0 => 0
  | [], _ + 1 => 0
  | s :: rest, k + 1 => s.text.length + 1 + segStart rest k

/-- The range `[start, start + len)` of segment `k` contains the raw
offset `raw`. -/
def segRangeHas (segs : List TextSegment) (k raw : Nat) : Bool :=
  match segs.get? k with
  | some s =>
    decide (segStart segs k ≤ raw) && decide (raw < segStart segs k + s.text.length)
  | none => false

/-- The spans (absolute start, length) that the extraction walk
attributes to the text nodes of a subtree placed at absolute position
`pos`, in extraction order, at the given budget. -/
def spansListWith (sf : JsonVal → Nat → List (Nat × Nat)) (ef : JsonVal → JStr) :
    List JsonVal → Nat → List (Nat × Nat)
  | [], _ => []
  | it :: rest, pos => sf it pos ++ spansListWith sf ef rest (pos + (ef it).length)

def spansFrom : JsonVal → Nat → Nat → List (Nat × Nat)
  | _, _, 0 => []
  | node, pos, b + 1 =>
    if jsFalsy node then []
    else
      match node with
      | .arr items =>
        spansListWith (fun it p => spansFrom it p b) (fun it => extractRecursive it b)
          items pos
      | .obj _ =>
        if skipTypeNode node then []
        else
          let t0 : JStr := (nodeTextIf node).getD []
          let tspan : List (Nat × Nat) :=
            match nodeTextIf node with
            | some s => [(pos, s.length)]
            | none => []
          let cspans := spansListWith (fun it p => spansFrom it p b)
                          (fun it => extractRecursive it b) (childrenArr node)
                          (pos + t0.length)
          if isBlockTag node then tspan ++ cspans
          else
            tspan ++ cspans ++
            (match jsGet node "root" with
             | some r =>
               spansFrom r
                 (pos + t0.length +
                   ((childrenArr node).map (fun c => extractRecursive c b)).flatten.length) b
             | none => [])
      | _ => []

/-- Down to the given budget, every text node of the tree is a leaf:
it carries no `children` array and no `root`.  Real Lexical text nodes
always satisfy this. -/
def leafTextOK : JsonVal → Nat → Bool
  | _, 0 => true
  | node, b + 1 =>
    match node with
    | .arr items => items.all (fun it => leafTextOK it b)
    | .obj _ =>
      ((nodeTextIf node).isNone ||
        ((childrenArr node).isEmpty && (jsGet node "root").isNone)) &&
      (childrenArr node).all (fun it => leafTextOK it b) &&
      (match jsGet node "root" with
       | some r => leafTextOK r b
       | none => true)
    | _ => true

/- ─── Concrete documents used by the claims ──────────────────────── -/

def mkTextNode (s : String) : JsonVal :=
  .obj [("type", .str (jstr "text")), ("text", .str (jstr s))]

def mkParagraph (cs : List JsonVal) : JsonVal :=
  .obj [("type", .str (jstr "paragraph")), ("children", .arr cs)]

def mkLexical (cs : List JsonVal) : JsonVal :=
  .obj [("root", .obj [("type", .str (jstr "root")), ("children", .arr cs)])]

/-- The document of the exact-fix scenario:
`{title: "Titre", content: richtext([paragraph("Ceci est une test.")])}`. -/
def docExact : JsonVal :=
  .obj [("title", .str (jstr "Titre")),
        ("content", mkLexical [mkParagraph [mkTextNode "Ceci est une test."]])]

/-- A document whose only natural-language text sits inside a `code`
node. -/
def docCodeBlock : JsonVal :=
  .obj [("content", mkLexical [.obj [("type", .str (jstr "code")),
                                     ("children", .arr [mkTextNode "foo bar"])]])]

/-- A document whose title begins with whitespace, so the trimmed flat
text is shifted against the raw joined segments. -/
def docLeadingWs : JsonVal := .obj [("title", .str (jstr " a"))]

/-- A malformed text node that carries a child text node: extraction
walks into the child, the offset re-walk does not. -/
def nonLeafTextNode : JsonVal :=
  .obj [("type", .str (jstr "text")), ("text", .str (jstr "ab")),
        ("children", .arr [mkTextNode "X"])]

def nonLeafTree : JsonVal := .arr [nonLeafTextNode, mkTextNode "cd"]

/-- A rich-text chain of nested wrapper nodes of depth `n` with a text
node at the bottom. -/
def deepChain : Nat → JsonVal
  | 0 => mkTextNode "x"
  | n + 1 => .obj [("children", .arr [deepChain n])]

/-- A block chain of nested objects of depth `n` with a plain-text
`heading` field at the bottom. -/
def blockChain : Nat → JsonVal
  | 0 => .obj [("heading", .str (jstr "abc"))]
  | n + 1 => .obj [("inner", blockChain n)]

/-- A bare `code` node containing a text child. -/
def codeNodeOnly : JsonVal :=
  .obj [("type", .str (jstr "code")), ("children", .arr [mkTextNode "foo bar"])]

/-- A document whose layout holds a single `code` block: the
block-segment path has no `SKIP_TYPES` check, so the code node's text
reaches the flat text through the `text` plain-text key. -/
def docSkipLayout : JsonVal := .obj [("layout", .arr [codeNodeOnly])]

/- ════════════════════════════ Theorems ═══════════════════════════ -/

/- ─── General list and string lemmas ─────────────────────────────── -/

theorem jsSlice_append (A B : JStr) (a b : Nat) :
    jsSlice (A ++ B) (A.length + a) (A.length + b) = jsSlice B a b := by
  simp [jsSlice, List.take_append, List.drop_append]

theorem jsSlice_zero_len (A B : JStr) :
    jsSlice (A ++ B) 0 A.length = A := by
  simp [jsSlice, List.take_append_of_le_length (Nat.le_refl A.length)]

/- ─── Joined-text addressing (claims C5) ─────────────────────────── -/

theorem joinNL_cons_cons (t u : JStr) (rest : List JStr) :
    joinNL (t :: u :: rest) = (t ++ ['\n']) ++ joinNL (u :: rest) := by
  simp [joinNL]

theorem joinNL_segment_slice :
    ∀ (segs : List TextSegment) (k : Nat) (h : k < segs.length),
      jsSlice (joinNL (segs.map (fun s => s.text))) (segStart segs k)
        (segStart segs k + (segs.get ⟨k, h⟩).text.length)
      = (segs.get ⟨k, h⟩).text := by
  intro segs
  induction segs with
  | nil => intro k h; exact absurd h (by simp)
  | cons s rest ih =>
    intro k h
    cases k with
    | zero =>
      cases rest with
      | nil =>
        simp [joinNL, segStart, jsSlice]
      | cons u rest2 =>
        have : joinNL ((s :: u :: rest2).map (fun s => s.text))
            = (s.text ++ ['\n']) ++ joinNL ((u :: rest2).map (fun s => s.text)) := by
          simp [joinNL_cons_cons]
        rw [this]
        simpa [segStart] using jsSlice_zero_len s.text
          (['\n'] ++ joinNL ((u :: rest2).map (fun s => s.text)))
    | succ k =>
      cases rest with
      | nil => exact absurd h (by simp)
      | cons u rest2 =>
        have hk : k < (u :: rest2).length := by simpa using Nat.lt_of_succ_lt_succ h
        have hjoin : joinNL ((s :: u :: rest2).map (fun s => s.text))
            = (s.text ++ ['\n']) ++ joinNL ((u :: rest2).map (fun s => s.text)) := by
          simp [joinNL_cons_cons]
        have hst : segStart (s :: u :: rest2) (k + 1)
            = (s.text ++ ['\n']).length + segStart (u :: rest2) k := by
          simp [segStart]
        rw [hjoin, hst, Nat.add_assoc, jsSlice_append]
        exact ih k hk


/- ─── Claim C1: the exact-fix scenario ───────────────────────────── -/

/-- C1: for `{title: "Titre", content: richtext([paragraph("Ceci est
une test.")])}` the extractor yields the flat text
`"Titre\nCeci est une test."`; applying `{offset: 15, length: 3,
original: "une", replacement: "un"}` goes through the offset path,
mutates the content field so that it re-extracts to
`"Ceci est un test."`, leaves the title unchanged, and reports the
modified field `content`. -/
theorem claim_C1 :
    (extractAllTextFromDocWithSources docExact "content").fullText
      = jstr "Titre\nCeci est une test." ∧
    (fixDocument docExact (jstr "une") (jstr "un") (some 15) (some 3) "content").fixed
      = true ∧
    (fixDocument docExact (jstr "une") (jstr "un") (some 15) (some 3) "content").modifiedField
      = some "content" ∧
    (fixDocument docExact (jstr "une") (jstr "un") (some 15) (some 3) "content").method
      = FixMethod.offsetM ∧
    (match jsGet (fixDocument docExact (jstr "une") (jstr "un") (some 15) (some 3) "content").doc
        "content" with
     | some c => extractTextFromLexical c
     | none => []) = jstr "Ceci est un test." ∧
    jsGet (fixDocument docExact (jstr "une") (jstr "un") (some 15) (some 3) "content").doc
        "title"
      = some (.str (jstr "Titre")) :=
  ⟨by decide, by decide, by decide, by decide, by decide, by rfl⟩

/- ─── Claim C7: flat text is the trimmed join of the segments ────── -/

/-- C7: for every document, the returned full text is exactly the
newline join of the returned segment texts, trimmed, and every returned
segment has non-empty text (empty ones are dropped before joining). -/
theorem claim_C7 (doc : JsonVal) (contentField : String) :
    (extractAllTextFromDocWithSources doc contentField).fullText
      = trimJ (joinNL ((extractAllTextFromDocWithSources doc contentField).segments.map
          (fun s => s.text))) ∧
    ∀ s ∈ (extractAllTextFromDocWithSources doc contentField).segments, s.text ≠ [] := by
  refine ⟨rfl, ?_⟩
  intro s hs
  simp only [extractAllTextFromDocWithSources] at hs
  have h2 := (List.mem_filter.mp hs).2
  simpa using h2

theorem claim_C7_witness :
    (extractAllTextFromDocWithSources docExact "content").fullText
      = trimJ (joinNL ((extractAllTextFromDocWithSources docExact "content").segments.map
          (fun s => s.text))) ∧
    (⟨jstr "Titre", .titleSrc⟩ : TextSegment).text ≠ [] :=
  ⟨(claim_C7 docExact "content").1,
   (claim_C7 docExact "content").2 ⟨jstr "Titre", .titleSrc⟩ (by decide)⟩

/- ─── Claim C5: segment addressing ───────────────────────────────── -/

/-- C5 (amended): segment addressing holds in the raw joined text (the
join of the segment texts with one separator each, before the final
trim): the slice of the raw joined text at the cumulative start of each
segment is exactly that segment text.  Against the trimmed flat text the
claim as stated fails whenever the join begins with whitespace, see the
counterexample. -/
theorem claim_C5 (doc : JsonVal) (contentField : String) (k : Nat)
    (h : k < (extractAllTextFromDocWithSources doc contentField).segments.length) :
    jsSlice (joinNL ((extractAllTextFromDocWithSources doc contentField).segments.map
        (fun s => s.text)))
      (segStart (extractAllTextFromDocWithSources doc contentField).segments k)
      (segStart (extractAllTextFromDocWithSources doc contentField).segments k
        + ((extractAllTextFromDocWithSources doc contentField).segments.get ⟨k, h⟩).text.length)
    = ((extractAllTextFromDocWithSources doc contentField).segments.get ⟨k, h⟩).text :=
  joinNL_segment_slice _ k h

theorem claim_C5_witness :
    0 < (extractAllTextFromDocWithSources docExact "content").segments.length ∧
    jsSlice (joinNL ((extractAllTextFromDocWithSources docExact "content").segments.map
        (fun s => s.text)))
      (segStart (extractAllTextFromDocWithSources docExact "content").segments 0)
      (segStart (extractAllTextFromDocWithSources docExact "content").segments 0
        + ((extractAllTextFromDocWithSources docExact "content").segments.get
            ⟨0, by decide⟩).text.length)
    = ((extractAllTextFromDocWithSources docExact "content").segments.get
        ⟨0, by decide⟩).text :=
  ⟨by decide, claim_C5 docExact "content" 0 (by decide)⟩

/-- C5 as stated is false against the trimmed flat text: for the
document `{title: " a"}` the single segment is `" a"` with start 0, but
the flat text is the trimmed `"a"`, whose slice `[0, 2)` is `"a"`. -/
theorem claim_C5_counterexample :
    ((extractAllTextFromDocWithSources docLeadingWs "content").segments.map
      (fun s => s.text)) = [jstr " a"] ∧
    segStart (extractAllTextFromDocWithSources docLeadingWs "content").segments 0 = 0 ∧
    jsSlice (extractAllTextFromDocWithSources docLeadingWs "content").fullText 0
        (0 + (jstr " a").length)
      ≠ jstr " a" :=
  ⟨by decide, by decide, by decide⟩

/- ─── Claim C8: skip nodes ───────────────────────────────────────── -/

/-- C8 (amended): the rich-text walker contributes nothing from a
`Skip`-kind node (`extractRecursive` returns the empty string at every
budget) and the offset-based re-walk through that walker never mutates
inside one: it reports zero characters, no fix, and leaves the node
unchanged.  The claim's stronger conjuncts are false: the block-segment
path has no `SKIP_TYPES` check, so text inside a `code` node can reach
the flat text through a `PLAIN_TEXT_KEYS` field and be targeted by an
offset fix, and the legacy substring path rewrites code text directly —
see the counterexample. -/
theorem claim_C8 (node : JsonVal) (b tgt len pos : Nat) (rep : JStr)
    (h : skipTypeNode node = true) :
    extractRecursive node b = [] ∧
    fixInLexicalTree node tgt len rep pos b = ⟨node, false, 0⟩ := by
  cases b with
  | zero => exact ⟨rfl, rfl⟩
  | succ b =>
    cases node with
    | obj fields =>
      constructor
      · simp [extractRecursive, jsFalsy, h]
      · simp [fixInLexicalTree, jsFalsy, h]
    | str s => simp [skipTypeNode, jsGet] at h
    | num n => simp [skipTypeNode, jsGet] at h
    | bool b2 => simp [skipTypeNode, jsGet] at h
    | null => simp [skipTypeNode, jsGet] at h
    | arr items => simp [skipTypeNode, jsGet] at h

theorem claim_C8_witness :
    skipTypeNode codeNodeOnly = true ∧
    extractRecursive codeNodeOnly 51 = [] ∧
    fixInLexicalTree codeNodeOnly 0 3 (jstr "z") 0 51 = ⟨codeNodeOnly, false, 0⟩ :=
  ⟨by decide, (claim_C8 codeNodeOnly 51 0 3 0 (jstr "z") (by decide)).1,
   (claim_C8 codeNodeOnly 51 0 3 0 (jstr "z") (by decide)).2⟩

/-- C8 as stated is false on two fix paths.  Block path: a `code` node
inside `layout` has no skip guard in the block-segment extraction, so
its text `"foo bar"` appears verbatim in the flat text and an
offset-based fix request rewrites it (method offset, field layout).
Legacy path: a document whose only occurrence of `"foo"` sits inside a
`code` node in the rich-text content extracts to an empty flat text,
yet a fix request without offset data goes through the legacy substring
path and rewrites the text inside the code node. -/
theorem claim_C8_counterexample :
    (extractAllTextFromDocWithSources docSkipLayout "content").fullText = jstr "foo bar" ∧
    (fixDocument docSkipLayout (jstr "bar") (jstr "baz") (some 4) (some 3)
      "content").fixed = true ∧
    (fixDocument docSkipLayout (jstr "bar") (jstr "baz") (some 4) (some 3)
      "content").method = FixMethod.offsetM ∧
    (fixDocument docSkipLayout (jstr "bar") (jstr "baz") (some 4) (some 3)
      "content").doc
      = .obj [("layout", .arr [.obj [("type", .str (jstr "code")),
          ("children", .arr [mkTextNode "foo baz"])]])] ∧
    (extractAllTextFromDocWithSources docCodeBlock "content").fullText = [] ∧
    (fixDocument docCodeBlock (jstr "foo") (jstr "baz") none none "content").fixed = true ∧
    (fixDocument docCodeBlock (jstr "foo") (jstr "baz") none none "content").method
      = FixMethod.legacyM ∧
    (fixDocument docCodeBlock (jstr "foo") (jstr "baz") none none "content").doc
      = .obj [("content", mkLexical [.obj [("type", .str (jstr "code")),
               ("children", .arr [mkTextNode "baz bar"])]])] :=
  ⟨by decide, by decide, by decide, by rfl, by decide, by decide, by decide, by rfl⟩

/- ─── Claim C9: bounded recursion ────────────────────────────────── -/

theorem deepChain_extract (n : Nat) : ∀ b, extractRecursive (deepChain n) b
    = if n < b then jstr "x" else [] := by
  induction n with
  | zero =>
    intro b
    cases b with
    | zero => rfl
    | succ b => rw [if_pos (Nat.succ_pos b)]; rfl
  | succ n ih =>
    intro b
    cases b with
    | zero => rfl
    | succ b =>
      have step : extractRecursive (deepChain (n + 1)) (b + 1)
          = extractRecursive (deepChain n) b := by
        simp [deepChain, extractRecursive, jsFalsy, skipTypeNode, nodeTextIf,
          nodeTypeIs, isBlockTag, childrenArr, jsGet, List.lookup]
      rw [step, ih b]
      by_cases hnb : n < b
      · rw [if_pos hnb, if_pos (Nat.succ_lt_succ hnb)]
      · rw [if_neg hnb, if_neg (fun hc => hnb (Nat.lt_of_succ_lt_succ hc))]

theorem blockChain_segments (n : Nat) :
    ∀ (b : Nat) (path : JsonPath) (tf : String),
      extractBlockSegments (blockChain n) path tf b
      = if n < b then
          [⟨jstr "abc", .plainSrc (path ++ List.replicate n (.keyStep "inner")) "heading" tf⟩]
        else [] := by
  induction n with
  | zero =>
    intro b path tf
    cases b with
    | zero => rfl
    | succ b =>
      rw [if_pos (Nat.succ_pos b)]
      have h1 : structuralTokenStart ['a', 'b', 'c'] = false := by decide
      have h2 : jsonBlobLike ['a', 'b', 'c'] = false := by decide
      simp [blockChain, extractBlockSegments, jsFalsy, SKIP_KEYS, isLexicalJson,
        jsGet, List.lookup, h1, h2, PLAIN_TEXT_KEYS, jstr]
  | succ n ih =>
    intro b path tf
    cases b with
    | zero => rfl
    | succ b =>
      have hnl : isLexicalJson (blockChain n) = false := by
        cases n <;> simp [blockChain, isLexicalJson, jsGet, List.lookup]
      have hno : ∃ fields, blockChain n = JsonVal.obj fields := by
        cases n <;> exact ⟨_, rfl⟩
      obtain ⟨fields, hfields⟩ := hno
      have hnl2 : isLexicalJson (JsonVal.obj fields) = false := hfields ▸ hnl
      have step : extractBlockSegments (blockChain (n + 1)) path tf (b + 1)
          = extractBlockSegments (blockChain n) (path ++ [PathElem.keyStep "inner"]) tf b := by
        simp only [blockChain, extractBlockSegments]
        rw [hfields]
        simp [jsFalsy, SKIP_KEYS, jsGet, List.lookup, hnl2]
      rw [step, ih b (path ++ [PathElem.keyStep "inner"]) tf]
      by_cases hnb : n < b
      · rw [if_pos hnb, if_pos (Nat.succ_lt_succ hnb)]
        simp [List.replicate_succ, List.append_assoc]
      · rw [if_neg hnb, if_neg (fun hc => hnb (Nat.lt_of_succ_lt_succ hc))]

/-- C9: extraction is driven by bounded budgets only: the rich-text
walk of an `n`-deep chain returns the text at the bottom exactly when
`n` is below the budget (default `maxDepth = 50`, budget 51) and the
empty string beyond it, and the block walk of an `n`-deep block chain
returns its plain-text segment exactly when `n` is within the depth-10
budget and nothing beyond it; in particular both walks return on inputs
of arbitrary depth. -/
theorem claim_C9 :
    (∀ n, extractTextFromLexical (deepChain n) = if n < 51 then jstr "x" else []) ∧
    (∀ n (path : JsonPath) (tf : String),
      extractBlockSegments (blockChain n) path tf 11
      = if n < 11 then
          [⟨jstr "abc", .plainSrc (path ++ List.replicate n (.keyStep "inner")) "heading" tf⟩]
        else []) := by
  constructor
  · intro n
    unfold extractTextFromLexical
    rw [deepChain_extract n 51]
    by_cases h51 : n < 51
    · simp only [if_pos h51]; decide
    · simp only [if_neg h51]; decide
  · intro n path tf
    exact blockChain_segments n 11 path tf

/- ─── Claim C6: the offset mapper ────────────────────────────────── -/

theorem trimStart_delta (l : JStr) :
    l.length - (trimStartJ l).length = (l.takeWhile jsWhitespace).length := by
  have h := List.takeWhile_append_dropWhile (p := jsWhitespace) (l := l)
  have hlen := congrArg List.length h
  rw [List.length_append] at hlen
  unfold trimStartJ
  omega

theorem applyFixLoop_not_found (doc : JsonVal) (len : Nat) (rep : JStr) :
    ∀ (segs : List TextSegment) (pos raw : Nat),
      (∀ k s, segs.get? k = some s →
        ¬(pos + segStart segs k ≤ raw ∧
          raw < pos + segStart segs k + s.text.length)) →
      applyFixLoop doc raw len rep segs pos = ⟨doc, false, none⟩ := by
  intro segs
  induction segs with
  | nil => intro pos raw _; rfl
  | cons s rest ih =>
    intro pos raw hno
    have h0 : ¬(pos ≤ raw ∧ raw < pos + s.text.length) := by
      have := hno 0 s rfl
      simpa [segStart] using this
    have hcond : ¬((decide (pos ≤ raw) && decide (raw < pos + s.text.length)) = true) := by
      simpa [Bool.and_eq_true, decide_eq_true_eq] using h0
    simp only [applyFixLoop]
    rw [if_neg hcond]
    apply ih
    intro k t hkt
    have := hno (k + 1) t (by simpa using hkt)
    simp only [segStart] at this ⊢
    omega

theorem applyFixLoop_found (doc : JsonVal) (len : Nat) (rep : JStr) :
    ∀ (segs : List TextSegment) (k : Nat) (pos raw : Nat) (s : TextSegment),
      segs.get? k = some s →
      (pos + segStart segs k ≤ raw ∧
        raw < pos + segStart segs k + s.text.length) →
      (∀ j t, j < k → segs.get? j = some t →
        ¬(pos + segStart segs j ≤ raw ∧
          raw < pos + segStart segs j + t.text.length)) →
      applyFixLoop doc raw len rep segs pos
        = applyFixToSegment doc s (raw - (pos + segStart segs k)) len rep := by
  intro segs
  induction segs with
  | nil => intro k pos raw s hget; exact absurd hget (by simp)
  | cons u rest ih =>
    intro k pos raw s hget hin hmin
    cases k with
    | zero =>
      have hsu : u = s := by simpa using hget
      have hin0 : pos ≤ raw ∧ raw < pos + u.text.length := by
        rw [hsu]
        simpa [segStart] using hin
      have hcond : ((decide (pos ≤ raw) && decide (raw < pos + u.text.length)) = true) := by
        simpa [Bool.and_eq_true, decide_eq_true_eq] using hin0
      simp only [applyFixLoop]
      rw [if_pos hcond, ← hsu]
      simp [segStart]
    | succ k =>
      have h0 : ¬(pos ≤ raw ∧ raw < pos + u.text.length) := by
        have := hmin 0 u (Nat.succ_pos k) rfl
        simpa [segStart] using this
      have hcond : ¬((decide (pos ≤ raw) && decide (raw < pos + u.text.length)) = true) := by
        simpa [Bool.and_eq_true, decide_eq_true_eq] using h0
      simp only [applyFixLoop]
      rw [if_neg hcond]
      have hget2 : rest.get? k = some s := by simpa using hget
      have heq := ih k (pos + u.text.length + 1) raw s hget2 ?_ ?_
      · rw [heq]
        have harith : raw - (pos + u.text.length + 1 + segStart rest k)
            = raw - (pos + segStart (u :: rest) (k + 1)) := by
          simp only [segStart]
          omega
        rw [harith]
      · have := hin
        simp only [segStart] at this ⊢
        omega
      · intro j t hjk hjt
        have := hmin (j + 1) t (Nat.succ_lt_succ hjk) (by simpa using hjt)
        simp only [segStart] at this ⊢
        omega

theorem segRangeHas_false_iff (segs : List TextSegment) (k raw : Nat) :
    segRangeHas segs k raw = false ↔
      (∀ s, segs.get? k = some s →
        ¬(segStart segs k ≤ raw ∧ raw < segStart segs k + s.text.length)) := by
  unfold segRangeHas
  cases hg : segs.get? k with
  | none => simp
  | some s => simp [hg]

/-- C6: the mapper adds the trim delta (exactly the number of leading
whitespace characters of the raw joined text) to the reported offset,
selects the first segment whose range `[start, start + len)` contains
the raw offset and hands it the local offset `rawOffset - start`, and
when no segment range contains the raw offset it reports not-found and
returns the document unchanged. -/
theorem claim_C6 (doc : JsonVal) (segments : List TextSegment)
    (offset len : Nat) (rep : JStr) (raw : Nat)
    (hraw : raw = offset +
      ((joinNL (segments.map (fun s => s.text))).length
        - (trimStartJ (joinNL (segments.map (fun s => s.text)))).length)) :
    ((joinNL (segments.map (fun s => s.text))).length
        - (trimStartJ (joinNL (segments.map (fun s => s.text)))).length
      = ((joinNL (segments.map (fun s => s.text))).takeWhile jsWhitespace).length) ∧
    ((∀ k, segRangeHas segments k raw = false) →
      applyFixAtOffset doc segments offset len rep = ⟨doc, false, none⟩) ∧
    (∀ k s, segments.get? k = some s → segRangeHas segments k raw = true →
      (∀ j, j < k → segRangeHas segments j raw = false) →
      applyFixAtOffset doc segments offset len rep
        = applyFixToSegment doc s (raw - segStart segments k) len rep) := by
  refine ⟨trimStart_delta _, ?_, ?_⟩
  · intro hno
    show applyFixLoop doc (offset +
      ((joinNL (segments.map (fun s => s.text))).length
        - (trimStartJ (joinNL (segments.map (fun s => s.text)))).length)) len rep segments 0
      = ⟨doc, false, none⟩
    rw [← hraw]
    apply applyFixLoop_not_found
    intro k s hks
    have := (segRangeHas_false_iff segments k raw).mp (hno k) s hks
    simpa using this
  · intro k s hget hk hmin
    show applyFixLoop doc (offset +
      ((joinNL (segments.map (fun s => s.text))).length
        - (trimStartJ (joinNL (segments.map (fun s => s.text)))).length)) len rep segments 0
      = _
    rw [← hraw]
    have hkin : segStart segments k ≤ raw ∧ raw < segStart segments k + s.text.length := by
      unfold segRangeHas at hk
      rw [hget] at hk
      simpa [Bool.and_eq_true, decide_eq_true_eq] using hk
    have := applyFixLoop_found doc len rep segments k 0 raw s hget
      (by simpa using hkin)
      (by
        intro j t hjk hjt
        have := (segRangeHas_false_iff segments j raw).mp (hmin j hjk) t hjt
        simpa using this)
    simpa using this

theorem claim_C6_witness :
    applyFixAtOffset docExact (extractAllTextFromDocWithSources docExact "content").segments
        15 3 (jstr "un")
      = applyFixToSegment docExact
          ⟨jstr "Ceci est une test.", .lexicalSrc [.keyStep "content"] "content"⟩
          (15 + ((joinNL ((extractAllTextFromDocWithSources docExact "content").segments.map
              (fun s => s.text))).length
            - (trimStartJ (joinNL ((extractAllTextFromDocWithSources docExact "content").segments.map
              (fun s => s.text)))).length)
            - segStart (extractAllTextFromDocWithSources docExact "content").segments 1)
          3 (jstr "un") := by
  refine (claim_C6 docExact (extractAllTextFromDocWithSources docExact "content").segments
    15 3 (jstr "un") _ rfl).2.2 1
    ⟨jstr "Ceci est une test.", .lexicalSrc [.keyStep "content"] "content"⟩
    (by decide) (by decide) ?_
  intro j hj
  have hj0 : j = 0 := by omega
  subst hj0
  decide

/- ─── Occurrence enumeration (claims C3, C4) ─────────────────────── -/

theorem occAt_beyond (text needle : JStr) (hne : needle ≠ []) (i : Nat)
    (hi : text.length ≤ i) : occAt text needle i = false := by
  unfold occAt
  rw [List.drop_eq_nil_of_le hi]
  cases needle with
  | nil => exact absurd rfl hne
  | cons c cs => rfl

theorem indexOfGo_some (text needle : JStr) :
    ∀ (fuel i j : Nat), indexOfGo text needle i fuel = some j →
      i ≤ j ∧ j < i + fuel ∧ occAt text needle j = true ∧
      ∀ m, i ≤ m → m < j → occAt text needle m = false := by
  intro fuel
  induction fuel with
  | zero => intro i j h; exact absurd h (by simp [indexOfGo])
  | succ fuel ih =>
    intro i j h
    unfold indexOfGo at h
    by_cases hocc : occAt text needle i = true
    · rw [if_pos hocc] at h
      obtain rfl : i = j := by simpa using h
      exact ⟨Nat.le_refl _, by omega, hocc, fun m h1 h2 => by omega⟩
    · rw [if_neg hocc] at h
      obtain ⟨h1, h2, h3, h4⟩ := ih (i + 1) j h
      refine ⟨by omega, by omega, h3, ?_⟩
      intro m hm1 hm2
      rcases Nat.eq_or_lt_of_le hm1 with rfl | hlt
      · simpa using hocc
      · exact h4 m hlt hm2

theorem indexOfGo_none (text needle : JStr) :
    ∀ (fuel i : Nat), indexOfGo text needle i fuel = none →
      ∀ j, i ≤ j → j < i + fuel → occAt text needle j = false := by
  intro fuel
  induction fuel with
  | zero => intro i _ j h1 h2; omega
  | succ fuel ih =>
    intro i h j h1 h2
    unfold indexOfGo at h
    by_cases hocc : occAt text needle i = true
    · rw [if_pos hocc] at h; exact absurd h (by simp)
    · rw [if_neg hocc] at h
      rcases Nat.eq_or_lt_of_le h1 with rfl | hlt
      · simpa using hocc
      · exact ih (i + 1) h j hlt (by omega)

theorem indexOfFrom_some (text needle : JStr) (start j : Nat)
    (h : indexOfFrom text needle start = some j) :
    start ≤ j ∧ occAt text needle j = true ∧
    ∀ m, start ≤ m → m < j → occAt text needle m = false := by
  obtain ⟨h1, _, h3, h4⟩ := indexOfGo_some text needle _ start j h
  exact ⟨h1, h3, h4⟩

theorem indexOfFrom_none (text needle : JStr) (hne : needle ≠ []) (start : Nat)
    (h : indexOfFrom text needle start = none) :
    ∀ j, start ≤ j → occAt text needle j = false := by
  intro j hj
  rcases Nat.lt_or_ge j (text.length + 1) with hlt | hge
  · exact indexOfGo_none text needle _ start h j hj (by omega)
  · exact occAt_beyond text needle hne j (by omega)

theorem jsIncludes_nil (text : JStr) : jsIncludes text [] = true := by
  unfold jsIncludes indexOfFrom
  show (indexOfGo text [] 0 (text.length + 1)).isSome = true
  unfold indexOfGo
  simp [occAt, List.isPrefixOf]

theorem jsIncludes_false_no_occ (text needle : JStr) (hne : needle ≠ [])
    (h : jsIncludes text needle = false) : ∀ i, occAt text needle i = false := by
  intro i
  unfold jsIncludes at h
  cases hidx : indexOfFrom text needle 0 with
  | some j => rw [hidx] at h; simp at h
  | none => exact indexOfFrom_none text needle hne 0 hidx i (Nat.zero_le i)

theorem collectOccurrences_lb (text needle : JStr) :
    ∀ (fuel start x : Nat), x ∈ collectOccurrences text needle start fuel → start ≤ x := by
  intro fuel
  induction fuel with
  | zero => intro start x h; simp [collectOccurrences] at h
  | succ fuel ih =>
    intro start x h
    unfold collectOccurrences at h
    cases hidx : indexOfFrom text needle start with
    | none => rw [hidx] at h; simp at h
    | some i =>
      rw [hidx] at h
      have hsi := (indexOfFrom_some text needle start i hidx).1
      rcases List.mem_cons.mp h with rfl | h2
      · exact hsi
      · have := ih (i + 1) x h2
        omega

theorem collectOccurrences_sorted (text needle : JStr) :
    ∀ (fuel start : Nat), (collectOccurrences text needle start fuel).Pairwise (· < ·) := by
  intro fuel
  induction fuel with
  | zero => intro start; simp [collectOccurrences]
  | succ fuel ih =>
    intro start
    unfold collectOccurrences
    cases hidx : indexOfFrom text needle start with
    | none => simp
    | some i =>
      refine List.pairwise_cons.mpr ⟨?_, ih (i + 1)⟩
      intro x hx
      have := collectOccurrences_lb text needle fuel (i + 1) x hx
      omega

theorem collectOccurrences_mem (text needle : JStr) (hne : needle ≠ []) :
    ∀ (fuel start : Nat), text.length + 1 - start ≤ fuel →
      ∀ j, (j ∈ collectOccurrences text needle start fuel ↔
        (start ≤ j ∧ occAt text needle j = true)) := by
  intro fuel
  induction fuel with
  | zero =>
    intro start hfuel j
    simp only [collectOccurrences]
    constructor
    · intro h; simp at h
    · rintro ⟨hsj, hocc⟩
      rw [occAt_beyond text needle hne j (by omega)] at hocc
      exact absurd hocc (by simp)
  | succ fuel ih =>
    intro start hfuel j
    unfold collectOccurrences
    cases hidx : indexOfFrom text needle start with
    | none =>
      constructor
      · intro h; simp at h
      · rintro ⟨hsj, hocc⟩
        rw [indexOfFrom_none text needle hne start hidx j hsj] at hocc
        exact absurd hocc (by simp)
    | some i =>
      obtain ⟨hsi, hocci, hmin⟩ := indexOfFrom_some text needle start i hidx
      have hilen : i ≤ text.length := by
        by_contra hgt
        push_neg at hgt
        rw [occAt_beyond text needle hne i (by omega)] at hocci
        exact absurd hocci (by simp)
      have hfuel2 : text.length + 1 - (i + 1) ≤ fuel := by omega
      constructor
      · intro h
        rcases List.mem_cons.mp h with rfl | h2
        · exact ⟨hsi, hocci⟩
        · have := (ih (i + 1) hfuel2 j).mp h2
          exact ⟨by omega, this.2⟩
      · rintro ⟨hsj, hocc⟩
        rcases Nat.lt_or_ge j (i + 1) with hlt | hge
        · rcases Nat.lt_or_ge j i with hlt2 | hge2
          · rw [hmin j hsj hlt2] at hocc
            exact absurd hocc (by simp)
          · have hji : j = i := by omega
            subst hji
            exact List.mem_cons_self _ _
        · exact List.mem_cons_of_mem _ ((ih (i + 1) hfuel2 j).mpr ⟨hge, hocc⟩)

theorem occurrences_mem (text needle : JStr) (hne : needle ≠ []) (j : Nat) :
    j ∈ occurrences text needle ↔ occAt text needle j = true := by
  unfold occurrences
  rw [collectOccurrences_mem text needle hne (text.length + 1) 0 (by omega) j]
  simp

theorem occurrences_sorted (text needle : JStr) :
    (occurrences text needle).Pairwise (· < ·) :=
  collectOccurrences_sorted text needle (text.length + 1) 0

theorem foldClosest_spec (e : Nat) :
    ∀ (l : List Nat) (acc : Nat), (∀ y ∈ l, acc < y) → l.Pairwise (· < ·) →
      (l.foldl (fun closest curr =>
          if Nat.dist curr e < Nat.dist closest e then curr else closest) acc) ∈ acc :: l ∧
      ∀ y ∈ acc :: l,
        Nat.dist (l.foldl (fun closest curr =>
          if Nat.dist curr e < Nat.dist closest e then curr else closest) acc) e
            ≤ Nat.dist y e ∧
        (Nat.dist y e = Nat.dist (l.foldl (fun closest curr =>
          if Nat.dist curr e < Nat.dist closest e then curr else closest) acc) e →
          (l.foldl (fun closest curr =>
            if Nat.dist curr e < Nat.dist closest e then curr else closest) acc) ≤ y) := by
  intro l
  induction l with
  | nil =>
    intro acc _ _
    constructor
    · simp
    · intro y hy
      have : y = acc := by simpa using hy
      subst this
      exact ⟨Nat.le_refl _, fun _ => Nat.le_refl _⟩
  | cons c l ih =>
    intro acc hlb hpw
    have hac : acc < c := hlb c (List.mem_cons_self _ _)
    have hcl : ∀ y ∈ l, c < y := (List.pairwise_cons.mp hpw).1
    have hpl : l.Pairwise (· < ·) := (List.pairwise_cons.mp hpw).2
    simp only [List.foldl_cons]
    by_cases hc : Nat.dist c e < Nat.dist acc e
    · rw [if_pos hc]
      obtain ⟨hmem, hprop⟩ := ih c hcl hpl
      constructor
      · rcases List.mem_cons.mp hmem with heq | h2
        · rw [heq]; exact List.mem_cons_of_mem _ (List.mem_cons_self _ _)
        · exact List.mem_cons_of_mem _ (List.mem_cons_of_mem _ h2)
      · intro y hy
        rcases List.mem_cons.mp hy with rfl | hy2
        · -- y = acc
          have hrc := hprop c (List.mem_cons_self _ _)
          refine ⟨Nat.le_trans hrc.1 (Nat.le_of_lt hc), ?_⟩
          intro heq
          have : Nat.dist y e < Nat.dist y e := by
            calc Nat.dist y e
                = Nat.dist (l.foldl _ c) e := heq
              _ ≤ Nat.dist c e := hrc.1
              _ < Nat.dist y e := hc
          omega
        · exact hprop y hy2
    · rw [if_neg hc]
      push_neg at hc
      obtain ⟨hmem, hprop⟩ := ih acc (fun y hy => Nat.lt_trans hac (hcl y hy)) hpl
      constructor
      · rcases List.mem_cons.mp hmem with heq | h2
        · rw [heq]; exact List.mem_cons_self _ _
        · exact List.mem_cons_of_mem _ (List.mem_cons_of_mem _ h2)
      · intro y hy
        rcases List.mem_cons.mp hy with rfl | hy2
        · exact hprop y (List.mem_cons_self _ _)
        rcases List.mem_cons.mp hy2 with rfl | hy3
        · -- y = c
          have hracc := hprop acc (List.mem_cons_self _ _)
          refine ⟨Nat.le_trans hracc.1 hc, ?_⟩
          intro heq
          have h1 := hracc.1
          have hge : Nat.dist acc e = Nat.dist (List.foldl (fun closest curr =>
              if Nat.dist curr e < Nat.dist closest e then curr else closest) acc l) e := by
            omega
          have hle := hracc.2 hge
          omega
        · exact hprop y (List.mem_cons_of_mem _ hy3)

theorem findClosestMatch_spec (text needle : JStr) (e : Nat) (hne : needle ≠ []) :
    (findClosestMatch text needle e = none ↔ ∀ i, occAt text needle i = false) ∧
    (∀ i, findClosestMatch text needle e = some i →
      occAt text needle i = true ∧
      ∀ j, occAt text needle j = true →
        Nat.dist i e ≤ Nat.dist j e ∧ (Nat.dist j e = Nat.dist i e → i ≤ j)) := by
  have hempty : ¬(needle.isEmpty = true) := by
    cases needle with
    | nil => exact absurd rfl hne
    | cons c cs => simp
  unfold findClosestMatch
  rw [if_neg hempty]
  cases hocc : occurrences text needle with
  | nil =>
    constructor
    · constructor
      · intro _ i
        by_contra hc
        have hmem : i ∈ occurrences text needle :=
          (occurrences_mem text needle hne i).mpr (by simpa using hc)
        rw [hocc] at hmem
        simp at hmem
      · intro _; rfl
    · intro i h; exact absurd h (by simp)
  | cons a rest =>
    have hamem : a ∈ occurrences text needle := by
      rw [hocc]; exact List.mem_cons_self _ _
    have haocc := (occurrences_mem text needle hne a).mp hamem
    cases rest with
    | nil =>
      constructor
      · constructor
        · intro h; exact absurd h (by simp)
        · intro hall
          rw [hall a] at haocc
          exact absurd haocc (by simp)
      · intro i h
        have hia : a = i := by simpa using h
        subst hia
        refine ⟨haocc, ?_⟩
        intro j hj
        have hjmem : j ∈ occurrences text needle :=
          (occurrences_mem text needle hne j).mpr hj
        rw [hocc] at hjmem
        have : j = a := by simpa using hjmem
        subst this
        exact ⟨Nat.le_refl _, fun _ => Nat.le_refl _⟩
    | cons b rest2 =>
      have hsorted : (a :: b :: rest2).Pairwise (· < ·) := by
        rw [← hocc]; exact occurrences_sorted text needle
      have hlb : ∀ y ∈ b :: rest2, a < y := (List.pairwise_cons.mp hsorted).1
      have hpl : (b :: rest2).Pairwise (· < ·) := (List.pairwise_cons.mp hsorted).2
      obtain ⟨hmem, hprop⟩ := foldClosest_spec e (b :: rest2) a hlb hpl
      constructor
      · constructor
        · intro h; exact absurd h (by simp)
        · intro hall
          rw [hall a] at haocc
          exact absurd haocc (by simp)
      · intro i h
        have hri : (b :: rest2).foldl (fun closest curr =>
            if Nat.dist curr e < Nat.dist closest e then curr else closest) a = i := by
          simpa using h
        rw [hri] at hmem hprop
        constructor
        · have : i ∈ occurrences text needle := by rw [hocc]; exact hmem
          exact (occurrences_mem text needle hne i).mp this
        · intro j hj
          have hjmem : j ∈ occurrences text needle :=
            (occurrences_mem text needle hne j).mpr hj
          rw [hocc] at hjmem
          exact hprop j hjmem

/-- C3: reconciliation enumerates every occurrence of the original
string in the flat text (an index is returned iff one exists, and the
returned index is an occurrence minimising the distance to the reported
offset, ties broken toward the lowest index); in the handler, on a
mismatch at the reported offset it retries the offset mapper and the
correction applier at that occurrence with `length = original.length`
(falling back to the legacy search only if that retry does not fix),
and when no occurrence exists it goes directly to the whole-tree legacy
substring search. -/
theorem claim_C3 :
    (∀ (text needle : JStr) (e : Nat), needle ≠ [] →
      ((findClosestMatch text needle e = none ↔ ∀ i, occAt text needle i = false) ∧
       (∀ i, findClosestMatch text needle e = some i →
         occAt text needle i = true ∧
         ∀ j, occAt text needle j = true →
           Nat.dist i e ≤ Nat.dist j e ∧ (Nat.dist j e = Nat.dist i e → i ≤ j)))) ∧
    (∀ (doc : JsonVal) (original replacement : JStr) (off len : Nat) (cf : String),
      (jsSlice (extractAllTextFromDocWithSources doc cf).fullText off (off + len)
          == original) = false →
      (∀ fo, findClosestMatch (extractAllTextFromDocWithSources doc cf).fullText original off
          = some fo →
        fixDocument doc original replacement (some off) (some len) cf
          = (let r := applyFixAtOffset doc (extractAllTextFromDocWithSources doc cf).segments
               fo original.length replacement
             if r.fixed then ⟨r.doc, r.fixed, r.modifiedField, .searchM⟩
             else
               let lr := legacyFixSubstring doc original replacement cf
               if lr.fixed then ⟨lr.doc, lr.fixed, lr.modifiedField, .legacyM⟩
               else ⟨lr.doc, lr.fixed, lr.modifiedField, .searchM⟩)) ∧
      (findClosestMatch (extractAllTextFromDocWithSources doc cf).fullText original off
          = none →
        fixDocument doc original replacement (some off) (some len) cf
          = (let lr := legacyFixSubstring doc original replacement cf
             ⟨lr.doc, lr.fixed, lr.modifiedField, .legacyM⟩))) := by
  constructor
  · intro text needle e hne
    exact findClosestMatch_spec text needle e hne
  · intro doc original replacement off len cf hmis
    constructor
    · intro fo hfo
      unfold fixDocument
      simp only [hmis, hfo, Bool.false_eq_true, if_false]
    · intro hnone
      unfold fixDocument
      simp only [hmis, hnone, Bool.false_eq_true, if_false]
      by_cases hl : (legacyFixSubstring doc original replacement cf).fixed
      · simp [hl]
      · simp [hl]

theorem claim_C3_witness :
    (findClosestMatch (jstr "abab") (jstr "ab") 1 = none ↔
      ∀ i, occAt (jstr "abab") (jstr "ab") i = false) ∧
    fixDocument docExact (jstr "une") (jstr "un") (some 0) (some 3) "content"
      = (let r := applyFixAtOffset docExact
           (extractAllTextFromDocWithSources docExact "content").segments
           15 (jstr "une").length (jstr "un")
         if r.fixed then ⟨r.doc, r.fixed, r.modifiedField, .searchM⟩
         else
           let lr := legacyFixSubstring docExact (jstr "une") (jstr "un") "content"
           if lr.fixed then ⟨lr.doc, lr.fixed, lr.modifiedField, .legacyM⟩
           else ⟨lr.doc, lr.fixed, lr.modifiedField, .searchM⟩) :=
  ⟨(claim_C3.1 (jstr "abab") (jstr "ab") 1 (by decide)).1,
   (claim_C3.2 docExact (jstr "une") (jstr "un") 0 3 "content" (by decide)).1 15 (by decide)⟩

/- ─── Claim C4: not-found safety ─────────────────────────────────── -/

theorem legacyFixSubstring_unfixed (d : JsonVal) (o r : JStr) (cf : String)
    (h : (legacyFixSubstring d o r cf).fixed = false) :
    legacyFixSubstring d o r cf = ⟨d, false, none⟩ := by
  simp only [legacyFixSubstring] at h ⊢
  split at h
  next t heq1 =>
    simp at h
  next heq1 =>
    split at h
    next res heq2 =>
      exfalso
      split at heq2
      · rename_i h2 heq3
        split at heq2
        · rename_i rt heq4
          split at heq2
          · exact absurd heq2 (by simp)
          · split at heq2
            · injection heq2 with hres
              rw [← hres] at h
              simp at h
            · exact absurd heq2 (by simp)
        · exact absurd heq2 (by simp)
      · exact absurd heq2 (by simp)
    next heq2 =>
      split at h
      next res heq3 =>
        exfalso
        split at heq3
        · rename_i c heq4
          split at heq3
          · exact absurd heq3 (by simp)
          · split at heq3
            · injection heq3 with hres
              rw [← hres] at h
              simp at h
            · exact absurd heq3 (by simp)
        · exact absurd heq3 (by simp)
      next heq3 =>
        split at h
        next blocks heq4 =>
          split at h
          next htrue => simp at h
          next hfalse => rw [if_neg hfalse]
        next heq4 => rfl

theorem jsSlice_eq_occ (text pat : JStr) (a b : Nat) (h : jsSlice text a b = pat) :
    occAt text pat a = true := by
  unfold jsSlice at h
  unfold occAt
  have hdt : (text.take b).drop a = (text.drop a).take (b - a) := List.drop_take ..
  rw [hdt] at h
  have hpre : pat <+: text.drop a := h ▸ List.take_prefix _ _
  exact List.isPrefixOf_iff_prefix.mpr hpre

theorem includes_false_ne_nil (text pat : JStr) (h : jsIncludes text pat = false) :
    pat ≠ [] := by
  intro hp
  subst hp
  rw [jsIncludes_nil] at h
  exact absurd h (by simp)

theorem not_includes_slice_ne (text pat : JStr) (a b : Nat)
    (hni : jsIncludes text pat = false) :
    (jsSlice text a b == pat) = false := by
  cases hx : (jsSlice text a b == pat) with
  | false => rfl
  | true =>
    exfalso
    have heq : jsSlice text a b = pat := by simpa using hx
    have hocc := jsSlice_eq_occ text pat a b heq
    have hne := includes_false_ne_nil text pat hni
    rw [jsIncludes_false_no_occ text pat hne hni a] at hocc
    exact absurd hocc (by simp)

/-- C4: when the original string occurs neither in the flat text nor
anywhere the legacy substring search reaches, the fix operation reports
`fixed = false` with no modified field and returns the document
unchanged, whether or not offsets were supplied: no path performs a
partial or speculative mutation. -/
theorem claim_C4 (doc : JsonVal) (original replacement : JStr)
    (offset length : Option Nat) (cf : String)
    (hflat : jsIncludes (extractAllTextFromDocWithSources doc cf).fullText original = false)
    (hlegacy : (legacyFixSubstring doc original replacement cf).fixed = false) :
    (fixDocument doc original replacement offset length cf).doc = doc ∧
    (fixDocument doc original replacement offset length cf).fixed = false ∧
    (fixDocument doc original replacement offset length cf).modifiedField = none := by
  have hne := includes_false_ne_nil _ _ hflat
  have hleg := legacyFixSubstring_unfixed doc original replacement cf hlegacy
  cases offset with
  | none =>
    unfold fixDocument
    rw [hleg]
    exact ⟨rfl, rfl, rfl⟩
  | some off =>
    cases length with
    | none =>
      unfold fixDocument
      rw [hleg]
      exact ⟨rfl, rfl, rfl⟩
    | some len =>
      have hmis := not_includes_slice_ne _ original off (off + len) hflat
      have hnone : findClosestMatch (extractAllTextFromDocWithSources doc cf).fullText
          original off = none := by
        apply (findClosestMatch_spec _ original off hne).1.mpr
        exact jsIncludes_false_no_occ _ original hne hflat
      unfold fixDocument
      simp only [hmis, hnone, Bool.false_eq_true, if_false]
      rw [hleg]
      exact ⟨rfl, rfl, rfl⟩

theorem claim_C4_witness :
    jsIncludes (extractAllTextFromDocWithSources docExact "content").fullText (jstr "zzz")
      = false ∧
    (legacyFixSubstring docExact (jstr "zzz") (jstr "yyy") "content").fixed = false ∧
    (fixDocument docExact (jstr "zzz") (jstr "yyy") (some 3) (some 3) "content").doc
      = docExact ∧
    (fixDocument docExact (jstr "zzz") (jstr "yyy") (some 3) (some 3) "content").fixed
      = false ∧
    (fixDocument docExact (jstr "zzz") (jstr "yyy") (some 3) (some 3) "content").modifiedField
      = none := by
  refine ⟨by decide, by decide, ?_⟩
  exact claim_C4 docExact (jstr "zzz") (jstr "yyy") (some 3) (some 3) "content"
    (by decide) (by decide)

/- ─── Claim C10: plain-field filtering in blocks ─────────────────── -/

theorem extractBlockSegments_plain (b : Nat) :
    ∀ (node : JsonVal) (path : JsonPath) (tf : String) (seg : TextSegment),
      seg ∈ extractBlockSegments node path tf b →
      ∀ p k t, seg.source = .plainSrc p k t →
        PLAIN_TEXT_KEYS.contains k = true ∧ 2 < seg.text.length ∧
        seg.text.length < 5000 ∧
        structuralTokenStart seg.text = false ∧ jsonBlobLike seg.text = false := by
  induction b with
  | zero => intro node path tf seg h; simp [extractBlockSegments] at h
  | succ b ih =>
    intro node path tf seg h
    unfold extractBlockSegments at h
    by_cases hf : jsFalsy node = true
    · rw [if_pos hf] at h; simp at h
    · rw [if_neg hf] at h
      cases node with
      | str s => simp at h
      | num n => simp at h
      | bool b2 => simp at h
      | null => simp at h
      | arr items =>
        rw [List.mem_flatten] at h
        obtain ⟨l, hl, hseg⟩ := h
        rw [List.mem_map] at hl
        obtain ⟨p2, _, rfl⟩ := hl
        exact ih p2.2 _ tf seg hseg
      | obj fields =>
        rw [List.mem_flatten] at h
        obtain ⟨l, hl, hseg⟩ := h
        rw [List.mem_map] at hl
        obtain ⟨kv, _, rfl⟩ := hl
        simp only [] at hseg
        by_cases hsk : SKIP_KEYS.contains kv.1 = true
        · rw [if_pos hsk] at hseg; simp at hseg
        · rw [if_neg hsk] at hseg
          by_cases hlex : isLexicalJson kv.2 = true
          · rw [if_pos hlex] at hseg
            have hs : seg = ⟨extractTextFromLexical kv.2,
                .lexicalSrc (path ++ [.keyStep kv.1]) tf⟩ := by simpa using hseg
            intro p k t hsrc
            rw [hs] at hsrc
            simp at hsrc
          · rw [if_neg hlex] at hseg
            rcases List.mem_append.mp hseg with hpl | hrec
            · -- the plain-string branch
              cases hv : kv.2 with
              | str s =>
                rw [hv] at hpl
                simp at hpl
                obtain ⟨⟨hl1, hl2⟩, htok, hblob, hptk, hseg2⟩ := hpl
                intro p k t hsrc
                rw [hseg2] at hsrc ⊢
                simp only [SourceRef.plainSrc.injEq] at hsrc
                obtain ⟨-, hks, -⟩ := hsrc
                subst hks
                exact ⟨by simpa using hptk, hl1, hl2, htok, hblob⟩
              | num n => rw [hv] at hpl; simp at hpl
              | bool b2 => rw [hv] at hpl; simp at hpl
              | null => rw [hv] at hpl; simp at hpl
              | arr items => rw [hv] at hpl; simp at hpl
              | obj fields2 => rw [hv] at hpl; simp at hpl
            · -- the recursion branch
              cases hv : kv.2 with
              | str s => rw [hv] at hrec; simp at hrec
              | num n => rw [hv] at hrec; simp at hrec
              | bool b2 => rw [hv] at hrec; simp at hrec
              | null => rw [hv] at hrec; simp at hrec
              | arr items => rw [hv] at hrec; exact ih _ _ tf seg hrec
              | obj fields2 => rw [hv] at hrec; exact ih _ _ tf seg hrec

/-- C10: a plain-sourced segment of the extraction (a scalar block
field) always has its key in the plain-text allow-list, a value of
length strictly between 2 and 5000, and a value matching neither the
structural-token prefixes nor the brace- or bracket-delimited JSON-blob
shape; consequently one- or two-character values and values of 5000 or
more characters never contribute to the flat text. -/
theorem claim_C10 (doc : JsonVal) (cf : String) (seg : TextSegment)
    (hmem : seg ∈ (extractAllTextFromDocWithSources doc cf).segments)
    (p : JsonPath) (k t : String) (hsrc : seg.source = .plainSrc p k t) :
    PLAIN_TEXT_KEYS.contains k = true ∧ 2 < seg.text.length ∧
    seg.text.length < 5000 ∧
    structuralTokenStart seg.text = false ∧ jsonBlobLike seg.text = false := by
  simp only [extractAllTextFromDocWithSources] at hmem
  have hmem2 := (List.mem_filter.mp hmem).1
  rcases List.mem_append.mp hmem2 with h123 | hlay
  · rcases List.mem_append.mp h123 with h12 | hcont
    · rcases List.mem_append.mp h12 with hti | hhero
      · exfalso
        split at hti
        next tt heq =>
          split at hti
          · simp at hti
          · have : seg = ⟨tt, .titleSrc⟩ := by simpa using hti
            rw [this] at hsrc
            simp at hsrc
        next heq => simp at hti
      · exfalso
        split at hhero
        next h2 heq =>
          split at hhero
          next rt heq2 =>
            split at hhero
            · simp at hhero
            · have : seg = ⟨extractTextFromLexical rt,
                  .lexicalSrc [.keyStep "hero", .keyStep "richText"] "hero"⟩ := by
                simpa using hhero
              rw [this] at hsrc
              simp at hsrc
          next heq2 => simp at hhero
        next heq => simp at hhero
    · exfalso
      split at hcont
      next c heq =>
        split at hcont
        · have : seg = ⟨extractTextFromLexical c, .lexicalSrc [.keyStep cf] cf⟩ := by
            simpa using hcont
          rw [this] at hsrc
          simp at hsrc
        · simp at hcont
      next heq => simp at hcont
  · split at hlay
    next blocks heq =>
      rw [List.mem_flatten] at hlay
      obtain ⟨l, hl, hseg⟩ := hlay
      rw [List.mem_map] at hl
      obtain ⟨p2, _, rfl⟩ := hl
      exact extractBlockSegments_plain 11 p2.2 _ "layout" seg hseg p k t hsrc
    next heq => simp at hlay

theorem claim_C10_witness :
    (⟨jstr "abc", .plainSrc [.keyStep "layout", .idxStep 0] "heading" "layout"⟩ : TextSegment)
        ∈ (extractAllTextFromDocWithSources
            (.obj [("layout", .arr [.obj [("heading", .str (jstr "abc"))]])]) "content").segments ∧
    PLAIN_TEXT_KEYS.contains "heading" = true ∧ 2 < (jstr "abc").length ∧
    (jstr "abc").length < 5000 ∧
    structuralTokenStart (jstr "abc") = false ∧ jsonBlobLike (jstr "abc") = false :=
  ⟨by decide,
   claim_C10 (.obj [("layout", .arr [.obj [("heading", .str (jstr "abc"))]])]) "content"
     ⟨jstr "abc", .plainSrc [.keyStep "layout", .idxStep 0] "heading" "layout"⟩
     (by decide) [.keyStep "layout", .idxStep 0] "heading" "layout" rfl⟩

/- ─── Claim C2: the re-walk mirrors the extraction walk ──────────── -/

theorem spliceAt_append_left (X Y rep : JStr) (i l : Nat) (h : i + l ≤ X.length) :
    spliceAt (X ++ Y) i l rep = spliceAt X i l rep ++ Y := by
  unfold spliceAt
  rw [List.take_append_of_le_length (by omega),
    List.drop_append_of_le_length h]
  simp

theorem spliceAt_append_right (X Y rep : JStr) (i l : Nat) (h : X.length ≤ i) :
    spliceAt (X ++ Y) i l rep = X ++ spliceAt Y (i - X.length) l rep := by
  unfold spliceAt
  rw [List.take_append_eq_append_take, List.drop_append_eq_append_drop]
  rw [List.take_of_length_le h, List.drop_eq_nil_of_le (by omega)]
  have h1 : i + l - X.length = i - X.length + l := by omega
  rw [h1]
  simp

theorem lookup_setFieldAux_other (k k2 : String) (v : JsonVal) (hne : (k2 == k) = false) :
    ∀ fields : List (String × JsonVal),
      (setFieldAux k v fields).lookup k2 = fields.lookup k2 := by
  intro fields
  induction fields with
  | nil => rfl
  | cons kv rest ih =>
    obtain ⟨k3, v3⟩ := kv
    unfold setFieldAux
    by_cases h3 : (k3 == k) = true
    · rw [if_pos h3]
      have hk3 : k3 = k := by simpa using h3
      have h23 : (k2 == k3) = false := by
        subst hk3; exact hne
      simp [List.lookup, h23]
    · rw [if_neg h3]
      by_cases h23 : (k2 == k3) = true
      · simp [List.lookup, h23]
      · simp only [Bool.not_eq_true] at h23
        simp [List.lookup, h23, ih]

theorem lookup_setFieldAux_same (k : String) (v : JsonVal) :
    ∀ fields : List (String × JsonVal), (fields.lookup k).isSome →
      (setFieldAux k v fields).lookup k = some v := by
  intro fields
  induction fields with
  | nil => intro h; simp [List.lookup] at h
  | cons kv rest ih =>
    obtain ⟨k3, v3⟩ := kv
    intro h
    unfold setFieldAux
    by_cases h3 : (k3 == k) = true
    · rw [if_pos h3]
      have hk3 : k3 = k := by simpa using h3
      subst hk3
      simp [List.lookup]
    · rw [if_neg h3]
      have h23 : (k == k3) = false := by
        by_contra hc
        simp only [Bool.not_eq_false] at hc
        have : k = k3 := by simpa using hc
        subst this
        simp at h3
      simp only [List.lookup, h23] at h ⊢
      exact ih h

theorem jsGet_setField_other (node : JsonVal) (k k2 : String) (v : JsonVal)
    (hne : (k2 == k) = false) : jsGet (setField node k v) k2 = jsGet node k2 := by
  cases node with
  | obj fields => exact lookup_setFieldAux_other k k2 v hne fields
  | str s => rfl
  | num n => rfl
  | bool b => rfl
  | null => rfl
  | arr items => rfl

theorem jsGet_setField_same (node : JsonVal) (k : String) (v w : JsonVal)
    (h : jsGet node k = some w) : jsGet (setField node k v) k = some v := by
  cases node with
  | obj fields =>
    exact lookup_setFieldAux_same k v fields (by rw [show (fields.lookup k) = jsGet (.obj fields) k from rfl, h]; rfl)
  | str s => simp [jsGet] at h
  | num n => simp [jsGet] at h
  | bool b => simp [jsGet] at h
  | null => simp [jsGet] at h
  | arr items => simp [jsGet] at h

theorem jsGet_updChildren_other (node : JsonVal) (cs : List JsonVal) (k : String)
    (hne : (k == "children") = false) :
    jsGet (updChildren node cs) k = jsGet node k := by
  unfold updChildren
  split
  · exact jsGet_setField_other node "children" k (.arr cs) hne
  · rfl

theorem childrenArr_updChildren (node : JsonVal) (cs cs0 : List JsonVal)
    (h : jsGet node "children" = some (.arr cs0)) :
    childrenArr (updChildren node cs) = cs := by
  unfold updChildren childrenArr
  rw [h]
  rw [jsGet_setField_same node "children" (.arr cs) (.arr cs0) h]

theorem spansListWith_bounds (b : Nat)
    (hnode : ∀ (node : JsonVal) (pos st L : Nat), (st, L) ∈ spansFrom node pos b →
      pos ≤ st ∧ st + L ≤ pos + (extractRecursive node b).length) :
    ∀ (items : List JsonVal) (pos st L : Nat),
      (st, L) ∈ spansListWith (fun it p => spansFrom it p b)
        (fun it => extractRecursive it b) items pos →
      pos ≤ st ∧
      st + L ≤ pos + ((items.map (fun it => extractRecursive it b)).flatten).length := by
  intro items
  induction items with
  | nil => intro pos st L h; simp [spansListWith] at h
  | cons it rest ih =>
    intro pos st L h
    unfold spansListWith at h
    rcases List.mem_append.mp h with hh | ht
    · have := hnode it pos st L hh
      simp only [List.map_cons, List.flatten_cons, List.length_append]
      omega
    · have := ih (pos + (extractRecursive it b).length) st L ht
      simp only [List.map_cons, List.flatten_cons, List.length_append]
      omega

theorem spansFrom_bounds : ∀ (b : Nat) (node : JsonVal) (pos st L : Nat),
    (st, L) ∈ spansFrom node pos b →
    pos ≤ st ∧ st + L ≤ pos + (extractRecursive node b).length := by
  intro b
  induction b with
  | zero => intro node pos st L h; simp [spansFrom] at h
  | succ b ih =>
    intro node pos st L h
    unfold spansFrom at h
    by_cases hf : jsFalsy node = true
    · rw [if_pos hf] at h; simp at h
    · rw [if_neg hf] at h
      cases node with
      | str s => simp at h
      | num n => simp at h
      | bool b2 => simp at h
      | null => simp at h
      | arr items =>
        have hE : extractRecursive (.arr items) (b + 1)
            = ((items.map (fun it => extractRecursive it b)).flatten) := rfl
        rw [hE]
        exact spansListWith_bounds b ih items pos st L h
      | obj fields =>
        by_cases hskip : skipTypeNode (.obj fields) = true
        · rw [if_pos hskip] at h; simp at h
        · rw [if_neg hskip] at h
          simp only [] at h
          have hE0 : extractRecursive (.obj fields) (b + 1)
              = (if skipTypeNode (.obj fields) = true then []
                 else
                   if isBlockTag (.obj fields) = true then
                     (nodeTextIf (.obj fields)).getD []
                       ++ ((childrenArr (.obj fields)).map
                            (fun c => extractRecursive c b)).flatten ++ ['\n']
                   else
                     (nodeTextIf (.obj fields)).getD []
                       ++ ((childrenArr (.obj fields)).map
                            (fun c => extractRecursive c b)).flatten
                       ++ (match jsGet (.obj fields) "root" with
                           | some r => extractRecursive r b
                           | none => [])) := rfl
          rw [hE0, if_neg hskip]
          by_cases hblk : isBlockTag (.obj fields) = true
          · rw [if_pos hblk] at h ⊢
            rcases List.mem_append.mp h with hts | hcs
            · rcases hmt : nodeTextIf (.obj fields) with _ | s
              · rw [hmt] at hts; simp at hts
              · rw [hmt] at hts
                have heq : st = pos ∧ L = s.length := by simpa using hts
                obtain ⟨rfl, rfl⟩ := heq
                simp only [Option.getD_some, List.length_append]
                omega
            · have := spansListWith_bounds b ih (childrenArr (.obj fields))
                (pos + ((nodeTextIf (.obj fields)).getD []).length) st L hcs
              simp only [List.length_append]
              omega
          · rw [if_neg hblk] at h ⊢
            rcases List.mem_append.mp h with hts | hrs
            · rcases List.mem_append.mp hts with htt | hcs
              · rcases hmt : nodeTextIf (.obj fields) with _ | s
                · rw [hmt] at htt; simp at htt
                · rw [hmt] at htt
                  have heq : st = pos ∧ L = s.length := by simpa using htt
                  obtain ⟨rfl, rfl⟩ := heq
                  simp only [Option.getD_some, List.length_append]
                  omega
              · have := spansListWith_bounds b ih (childrenArr (.obj fields))
                  (pos + ((nodeTextIf (.obj fields)).getD []).length) st L hcs
                simp only [List.length_append]
                omega
            · rcases hmr : jsGet (.obj fields) "root" with _ | r
              · rw [hmr] at hrs; simp at hrs
              · rw [hmr] at hrs
                have := ih r (pos + ((nodeTextIf (.obj fields)).getD []).length
                  + ((childrenArr (.obj fields)).map
                      (fun c => extractRecursive c b)).flatten.length) st L hrs
                simp only [List.length_append]
                omega

theorem fixListWith_main (b tgt len : Nat) (rep : JStr)
    (hnode : ∀ (node : JsonVal) (pos : Nat), leafTextOK node b = true →
      ((∀ st L, (st, L) ∈ spansFrom node pos b → ¬(st ≤ tgt ∧ tgt < st + L)) →
        fixInLexicalTree node tgt len rep pos b
          = ⟨node, false, (extractRecursive node b).length⟩) ∧
      (∀ st L, (st, L) ∈ spansFrom node pos b → st ≤ tgt → tgt < st + L →
        (fixInLexicalTree node tgt len rep pos b).fixed = true ∧
        (tgt + len ≤ st + L →
          extractRecursive (fixInLexicalTree node tgt len rep pos b).val b
            = spliceAt (extractRecursive node b) (tgt - pos) len rep))) :
    ∀ (items : List JsonVal) (pos : Nat),
      (∀ it ∈ items, leafTextOK it b = true) →
      ((∀ st L, (st, L) ∈ spansListWith (fun it p => spansFrom it p b)
            (fun it => extractRecursive it b) items pos →
          ¬(st ≤ tgt ∧ tgt < st + L)) →
        fixListWith (fun it p => fixInLexicalTree it tgt len rep p b) items pos
          = ⟨items, false, ((items.map (fun it => extractRecursive it b)).flatten).length⟩) ∧
      (∀ st L, (st, L) ∈ spansListWith (fun it p => spansFrom it p b)
            (fun it => extractRecursive it b) items pos →
          st ≤ tgt → tgt < st + L →
        (fixListWith (fun it p => fixInLexicalTree it tgt len rep p b) items pos).fixed
          = true ∧
        (tgt + len ≤ st + L →
          (((fixListWith (fun it p => fixInLexicalTree it tgt len rep p b) items pos).items.map
              (fun it => extractRecursive it b)).flatten)
            = spliceAt ((items.map (fun it => extractRecursive it b)).flatten)
                (tgt - pos) len rep)) := by
  intro items
  induction items with
  | nil =>
    intro pos _
    constructor
    · intro _; rfl
    · intro st L h; simp [spansListWith] at h
  | cons it rest ih =>
    intro pos hleaf
    have hlit : leafTextOK it b = true := hleaf it (List.mem_cons_self _ _)
    have hlrest : ∀ x ∈ rest, leafTextOK x b = true :=
      fun x hx => hleaf x (List.mem_cons_of_mem _ hx)
    constructor
    · -- nothing contains the target
      intro hno
      have hnoIt : ∀ st L, (st, L) ∈ spansFrom it pos b → ¬(st ≤ tgt ∧ tgt < st + L) :=
        fun st L hm => hno st L (by unfold spansListWith; exact List.mem_append.mpr (Or.inl hm))
      have hnoRest : ∀ st L,
          (st, L) ∈ spansListWith (fun it p => spansFrom it p b)
            (fun it => extractRecursive it b) rest (pos + (extractRecursive it b).length) →
          ¬(st ≤ tgt ∧ tgt < st + L) :=
        fun st L hm => hno st L (by unfold spansListWith; exact List.mem_append.mpr (Or.inr hm))
      have hfixit := (hnode it pos hlit).1 hnoIt
      have hfixrest := (ih (pos + (extractRecursive it b).length) hlrest).1 hnoRest
      simp only [fixListWith]
      rw [hfixit]
      simp only []
      rw [hfixrest]
      simp [List.length_append]
    · -- some span contains the target
      intro st L hmem hle hlt
      unfold spansListWith at hmem
      rcases List.mem_append.mp hmem with hmIt | hmRest
      · -- the containing span lies in the head
        have hB := (hnode it pos hlit).2 st L hmIt hle hlt
        have hres : fixListWith (fun it p => fixInLexicalTree it tgt len rep p b)
            (it :: rest) pos
            = ⟨(fixInLexicalTree it tgt len rep pos b).val :: rest, true,
               (fixInLexicalTree it tgt len rep pos b).chars⟩ := by
          simp only [fixListWith]
          rw [if_pos hB.1]
        rw [hres]
        refine ⟨rfl, ?_⟩
        intro hcont
        have hb := spansFrom_bounds b it pos st L hmIt
        have hsplice := hB.2 hcont
        simp only [List.map_cons, List.flatten_cons]
        rw [hsplice]
        rw [spliceAt_append_left _ _ rep (tgt - pos) len (by omega)]
      · -- the containing span lies in the tail
        have hbRest := spansListWith_bounds b (spansFrom_bounds b) rest
          (pos + (extractRecursive it b).length) st L hmRest
        have hnoIt : ∀ st2 L2, (st2, L2) ∈ spansFrom it pos b →
            ¬(st2 ≤ tgt ∧ tgt < st2 + L2) := by
          intro st2 L2 hm2 hc
          have hb2 := spansFrom_bounds b it pos st2 L2 hm2
          omega
        have hfixit := (hnode it pos hlit).1 hnoIt
        have hB := (ih (pos + (extractRecursive it b).length) hlrest).2 st L hmRest hle hlt
        have hres : fixListWith (fun it p => fixInLexicalTree it tgt len rep p b)
            (it :: rest) pos
            = ⟨it :: (fixListWith (fun it p => fixInLexicalTree it tgt len rep p b) rest
                  (pos + (extractRecursive it b).length)).items, true,
               (extractRecursive it b).length
                 + (fixListWith (fun it p => fixInLexicalTree it tgt len rep p b) rest
                     (pos + (extractRecursive it b).length)).chars⟩ := by
          simp only [fixListWith]
          rw [hfixit]
          simp only []
          rw [if_pos hB.1]
          simp
        rw [hres]
        refine ⟨rfl, ?_⟩
        intro hcont
        have hsplice := hB.2 hcont
        simp only [List.map_cons, List.flatten_cons]
        rw [hsplice]
        rw [spliceAt_append_right _ _ rep (tgt - pos) len (by omega)]
        have harith : tgt - pos - (extractRecursive it b).length
            = tgt - (pos + (extractRecursive it b).length) := by omega
        rw [harith]

theorem nodeTextIf_some (node : JsonVal) (s : JStr) (h : nodeTextIf node = some s) :
    jsGet node "type" = some (.str (jstr "text")) ∧ jsGet node "text" = some (.str s) := by
  unfold nodeTextIf at h
  split at h
  · rename_i hty
    constructor
    · unfold nodeTypeIs at hty
      split at hty
      · rename_i t hget
        have : t = jstr "text" := by simpa using hty
        rw [hget, this]
      · exact absurd hty (by simp)
    · split at h
      · rename_i s2 hget
        have : s2 = s := by simpa using h
        rw [hget, this]
      · exact absurd h (by simp)
  · exact absurd h (by simp)

theorem isBlockTag_of_type_text (node : JsonVal)
    (h : jsGet node "type" = some (.str (jstr "text"))) : isBlockTag node = false := by
  simp [isBlockTag, nodeTypeIs, h, jstr]

theorem extractRecursive_obj_eq (fields : List (String × JsonVal)) (b : Nat)
    (hskip : skipTypeNode (.obj fields) = false) :
    extractRecursive (.obj fields) (b + 1)
      = (nodeTextIf (.obj fields)).getD []
        ++ ((childrenArr (.obj fields)).map (fun c => extractRecursive c b)).flatten
        ++ (if isBlockTag (.obj fields) = true then ['\n']
            else (match jsGet (.obj fields) "root" with
                  | some r => extractRecursive r b
                  | none => [])) := by
  have h0 : extractRecursive (.obj fields) (b + 1)
      = (if skipTypeNode (.obj fields) = true then []
         else
           if isBlockTag (.obj fields) = true then
             (nodeTextIf (.obj fields)).getD []
               ++ ((childrenArr (.obj fields)).map (fun c => extractRecursive c b)).flatten
               ++ ['\n']
           else
             (nodeTextIf (.obj fields)).getD []
               ++ ((childrenArr (.obj fields)).map (fun c => extractRecursive c b)).flatten
               ++ (match jsGet (.obj fields) "root" with
                   | some r => extractRecursive r b
                   | none => [])) := rfl
  rw [h0, if_neg (by simp [hskip])]
  by_cases hblk : isBlockTag (.obj fields) = true
  · rw [if_pos hblk, if_pos hblk]
  · rw [if_neg hblk, if_neg hblk]

theorem spansFrom_obj_eq (fields : List (String × JsonVal)) (pos b : Nat)
    (hskip : skipTypeNode (.obj fields) = false) :
    spansFrom (.obj fields) pos (b + 1)
      = (match nodeTextIf (.obj fields) with
         | some s => [(pos, s.length)]
         | none => [])
        ++ spansListWith (fun it p => spansFrom it p b) (fun it => extractRecursive it b)
            (childrenArr (.obj fields)) (pos + ((nodeTextIf (.obj fields)).getD []).length)
        ++ (if isBlockTag (.obj fields) = true then []
            else (match jsGet (.obj fields) "root" with
                  | some r =>
                    spansFrom r (pos + ((nodeTextIf (.obj fields)).getD []).length
                      + ((childrenArr (.obj fields)).map
                          (fun c => extractRecursive c b)).flatten.length) b
                  | none => [])) := by
  have h0 : spansFrom (.obj fields) pos (b + 1)
      = (if skipTypeNode (.obj fields) = true then []
         else
           if isBlockTag (.obj fields) = true then
             (match nodeTextIf (.obj fields) with
              | some s => [(pos, s.length)]
              | none => [])
               ++ spansListWith (fun it p => spansFrom it p b)
                   (fun it => extractRecursive it b) (childrenArr (.obj fields))
                   (pos + ((nodeTextIf (.obj fields)).getD []).length)
           else
             (match nodeTextIf (.obj fields) with
              | some s => [(pos, s.length)]
              | none => [])
               ++ spansListWith (fun it p => spansFrom it p b)
                   (fun it => extractRecursive it b) (childrenArr (.obj fields))
                   (pos + ((nodeTextIf (.obj fields)).getD []).length)
               ++ (match jsGet (.obj fields) "root" with
                   | some r =>
                     spansFrom r (pos + ((nodeTextIf (.obj fields)).getD []).length
                       + ((childrenArr (.obj fields)).map
                           (fun c => extractRecursive c b)).flatten.length) b
                   | none => [])) := rfl
  rw [h0, if_neg (by simp [hskip])]
  by_cases hblk : isBlockTag (.obj fields) = true
  · rw [if_pos hblk, if_pos hblk]
    simp
  · rw [if_neg hblk, if_neg hblk]

theorem fixInLexicalTree_obj_eq (fields : List (String × JsonVal))
    (tgt len pos b : Nat) (rep : JStr)
    (hskip : skipTypeNode (.obj fields) = false) :
    fixInLexicalTree (.obj fields) tgt len rep pos (b + 1)
      = (match nodeTextIf (.obj fields) with
         | some s =>
           if pos ≤ tgt && tgt < pos + s.length then
             ⟨setField (.obj fields) "text" (.str (spliceAt s (tgt - pos) len rep)), true,
              (spliceAt s (tgt - pos) len rep).length⟩
           else ⟨.obj fields, false, s.length⟩
         | none =>
           if isBlockTag (.obj fields) = true then
             (let r := fixListWith (fun it p => fixInLexicalTree it tgt len rep p b)
                         (childrenArr (.obj fields)) pos
              if r.fixed then ⟨updChildren (.obj fields) r.items, true, r.chars + 1⟩
              else ⟨.obj fields, false, r.chars + 1⟩)
           else
             (let rc := fixListWith (fun it p => fixInLexicalTree it tgt len rep p b)
                          (childrenArr (.obj fields)) pos
              if rc.fixed then ⟨updChildren (.obj fields) rc.items, true, rc.chars⟩
              else
                match jsGet (.obj fields) "root" with
                | some rt =>
                  let rr := fixInLexicalTree rt tgt len rep (pos + rc.chars) b
                  if rr.fixed then
                    ⟨setField (.obj fields) "root" rr.val, true, rc.chars + rr.chars⟩
                  else ⟨.obj fields, false, rc.chars + rr.chars⟩
                | none => ⟨.obj fields, false, rc.chars⟩)) := by
  have h0 : fixInLexicalTree (.obj fields) tgt len rep pos (b + 1)
      = (if skipTypeNode (.obj fields) = true then ⟨.obj fields, false, 0⟩
         else
           (match nodeTextIf (.obj fields) with
            | some s =>
              if pos ≤ tgt && tgt < pos + s.length then
                ⟨setField (.obj fields) "text" (.str (spliceAt s (tgt - pos) len rep)), true,
                 (spliceAt s (tgt - pos) len rep).length⟩
              else ⟨.obj fields, false, s.length⟩
            | none =>
              if isBlockTag (.obj fields) = true then
                (let r := fixListWith (fun it p => fixInLexicalTree it tgt len rep p b)
                            (childrenArr (.obj fields)) pos
                 if r.fixed then ⟨updChildren (.obj fields) r.items, true, r.chars + 1⟩
                 else ⟨.obj fields, false, r.chars + 1⟩)
              else
                (let rc := fixListWith (fun it p => fixInLexicalTree it tgt len rep p b)
                             (childrenArr (.obj fields)) pos
                 if rc.fixed then ⟨updChildren (.obj fields) rc.items, true, rc.chars⟩
                 else
                   match jsGet (.obj fields) "root" with
                   | some rt =>
                     let rr := fixInLexicalTree rt tgt len rep (pos + rc.chars) b
                     if rr.fixed then
                       ⟨setField (.obj fields) "root" rr.val, true, rc.chars + rr.chars⟩
                     else ⟨.obj fields, false, rc.chars + rr.chars⟩
                   | none => ⟨.obj fields, false, rc.chars⟩))) := rfl
  rw [h0, if_neg (by simp [hskip])]

theorem skipTypeNode_congr (n1 n2 : JsonVal) (h : jsGet n1 "type" = jsGet n2 "type") :
    skipTypeNode n1 = skipTypeNode n2 := by
  unfold skipTypeNode; rw [h]

theorem isBlockTag_congr (n1 n2 : JsonVal) (h : jsGet n1 "type" = jsGet n2 "type") :
    isBlockTag n1 = isBlockTag n2 := by
  unfold isBlockTag nodeTypeIs; rw [h]

theorem nodeTextIf_congr (n1 n2 : JsonVal) (hty : jsGet n1 "type" = jsGet n2 "type")
    (htx : jsGet n1 "text" = jsGet n2 "text") : nodeTextIf n1 = nodeTextIf n2 := by
  unfold nodeTextIf nodeTypeIs; rw [hty, htx]

theorem childrenArr_congr (n1 n2 : JsonVal) (h : jsGet n1 "children" = jsGet n2 "children") :
    childrenArr n1 = childrenArr n2 := by
  unfold childrenArr; rw [h]

theorem skip_triple (node : JsonVal) (b tgt len pos : Nat) (rep : JStr)
    (h : skipTypeNode node = true) :
    extractRecursive node b = [] ∧
    fixInLexicalTree node tgt len rep pos b = ⟨node, false, 0⟩ ∧
    spansFrom node pos b = [] := by
  cases b with
  | zero => exact ⟨rfl, rfl, rfl⟩
  | succ b =>
    cases node with
    | obj fields =>
      refine ⟨?_, ?_, ?_⟩
      · simp [extractRecursive, jsFalsy, h]
      · simp [fixInLexicalTree, jsFalsy, h]
      · simp [spansFrom, jsFalsy, h]
    | str s => simp [skipTypeNode, jsGet] at h
    | num n => simp [skipTypeNode, jsGet] at h
    | bool b2 => simp [skipTypeNode, jsGet] at h
    | null => simp [skipTypeNode, jsGet] at h
    | arr items => simp [skipTypeNode, jsGet] at h

theorem fixExtract_obj (b tgt len : Nat) (rep : JStr)
    (hnode : ∀ (node : JsonVal) (pos : Nat), leafTextOK node b = true →
      ((∀ st L, (st, L) ∈ spansFrom node pos b → ¬(st ≤ tgt ∧ tgt < st + L)) →
        fixInLexicalTree node tgt len rep pos b
          = ⟨node, false, (extractRecursive node b).length⟩) ∧
      (∀ st L, (st, L) ∈ spansFrom node pos b → st ≤ tgt → tgt < st + L →
        (fixInLexicalTree node tgt len rep pos b).fixed = true ∧
        (tgt + len ≤ st + L →
          extractRecursive (fixInLexicalTree node tgt len rep pos b).val b
            = spliceAt (extractRecursive node b) (tgt - pos) len rep)))
    (fields : List (String × JsonVal)) (pos : Nat)
    (hleaf : leafTextOK (.obj fields) (b + 1) = true) :
    ((∀ st L, (st, L) ∈ spansFrom (.obj fields) pos (b + 1) → ¬(st ≤ tgt ∧ tgt < st + L)) →
      fixInLexicalTree (.obj fields) tgt len rep pos (b + 1)
        = ⟨.obj fields, false, (extractRecursive (.obj fields) (b + 1)).length⟩) ∧
    (∀ st L, (st, L) ∈ spansFrom (.obj fields) pos (b + 1) → st ≤ tgt → tgt < st + L →
      (fixInLexicalTree (.obj fields) tgt len rep pos (b + 1)).fixed = true ∧
      (tgt + len ≤ st + L →
        extractRecursive (fixInLexicalTree (.obj fields) tgt len rep pos (b + 1)).val (b + 1)
          = spliceAt (extractRecursive (.obj fields) (b + 1)) (tgt - pos) len rep)) := by
  have hleaf0 : (((nodeTextIf (.obj fields)).isNone ||
      ((childrenArr (.obj fields)).isEmpty && (jsGet (.obj fields) "root").isNone)) &&
      (childrenArr (.obj fields)).all (fun it => leafTextOK it b) &&
      (match jsGet (.obj fields) "root" with
       | some r => leafTextOK r b
       | none => true)) = true := hleaf
  simp only [Bool.and_eq_true] at hleaf0
  obtain ⟨⟨h1, h2⟩, h3⟩ := hleaf0
  have hchleaf : ∀ it ∈ childrenArr (.obj fields), leafTextOK it b = true := by
    intro it hit
    simpa using List.all_eq_true.mp h2 it hit
  by_cases hskip : skipTypeNode (.obj fields) = true
  · obtain ⟨hE, hF, hS⟩ := skip_triple (.obj fields) (b + 1) tgt len pos rep hskip
    constructor
    · intro _
      rw [hF, hE]
      rfl
    · intro st L hm
      rw [hS] at hm
      simp at hm
  · have hskipF : skipTypeNode (.obj fields) = false := by simpa using hskip
    have hE := extractRecursive_obj_eq fields b hskipF
    have hS := spansFrom_obj_eq fields pos b hskipF
    have hF := fixInLexicalTree_obj_eq fields tgt len pos b rep hskipF
    have hlist := fixListWith_main b tgt len rep hnode (childrenArr (.obj fields)) pos hchleaf
    rcases hmt : nodeTextIf (.obj fields) with _ | s
    · -- non-text node: children then (in the non-block case) root
      simp only [hmt, Option.getD_none, List.length_nil, Nat.add_zero,
        List.nil_append] at hE hS hF
      have hCA : childrenArr (.obj fields) = [] ∨
          ∃ cs, jsGet (.obj fields) "children" = some (.arr cs) := by
        rcases hcg : jsGet (.obj fields) "children" with _ | v
        · left; unfold childrenArr; rw [hcg]
        · cases v with
          | arr cs => exact Or.inr ⟨cs, rfl⟩
          | str s2 => left; unfold childrenArr; rw [hcg]
          | num n => left; unfold childrenArr; rw [hcg]
          | bool b2 => left; unfold childrenArr; rw [hcg]
          | null => left; unfold childrenArr; rw [hcg]
          | obj f2 => left; unfold childrenArr; rw [hcg]
      by_cases hblk : isBlockTag (.obj fields) = true
      · -- block-level node: children then a newline, no root detour
        rw [if_pos hblk] at hE hF
        rw [if_pos hblk] at hS
        simp only [List.append_nil] at hS
        have hF2 : fixInLexicalTree (.obj fields) tgt len rep pos (b + 1)
            = (if (fixListWith (fun it p => fixInLexicalTree it tgt len rep p b)
                    (childrenArr (.obj fields)) pos).fixed = true
               then ⟨updChildren (.obj fields)
                       (fixListWith (fun it p => fixInLexicalTree it tgt len rep p b)
                         (childrenArr (.obj fields)) pos).items, true,
                     (fixListWith (fun it p => fixInLexicalTree it tgt len rep p b)
                       (childrenArr (.obj fields)) pos).chars + 1⟩
               else ⟨.obj fields, false,
                     (fixListWith (fun it p => fixInLexicalTree it tgt len rep p b)
                       (childrenArr (.obj fields)) pos).chars + 1⟩) := by
          rw [hF]
        constructor
        · intro hno
          have hno2 : ∀ st L, (st, L) ∈ spansListWith (fun it p => spansFrom it p b)
              (fun it => extractRecursive it b) (childrenArr (.obj fields)) pos →
              ¬(st ≤ tgt ∧ tgt < st + L) := by
            intro st L hm2
            exact hno st L (by rw [hS]; exact hm2)
          have hr := hlist.1 hno2
          rw [hF2, hr, hE]
          simp [List.length_append]
        · intro st L hm hle hlt
          have hm' : (st, L) ∈ spansListWith (fun it p => spansFrom it p b)
              (fun it => extractRecursive it b) (childrenArr (.obj fields)) pos := by
            rw [hS] at hm; exact hm
          have hB := hlist.2 st L hm' hle hlt
          have hfix : fixInLexicalTree (.obj fields) tgt len rep pos (b + 1)
              = ⟨updChildren (.obj fields)
                   (fixListWith (fun it p => fixInLexicalTree it tgt len rep p b)
                     (childrenArr (.obj fields)) pos).items, true,
                 (fixListWith (fun it p => fixInLexicalTree it tgt len rep p b)
                   (childrenArr (.obj fields)) pos).chars + 1⟩ := by
            rw [hF2, if_pos hB.1]
          refine ⟨by rw [hfix], ?_⟩
          intro hcont
          rcases hCA with hch0 | ⟨cs, hcg⟩
          · rw [hch0] at hm'
            simp [spansListWith] at hm'
          · have hbnd := spansListWith_bounds b
              (fun n p st2 L2 h2 => spansFrom_bounds b n p st2 L2 h2)
              (childrenArr (.obj fields)) pos st L hm'
            have hsp := hB.2 hcont
            have htyV : jsGet (updChildren (.obj fields)
                  (fixListWith (fun it p => fixInLexicalTree it tgt len rep p b)
                    (childrenArr (.obj fields)) pos).items) "type"
                = jsGet (.obj fields) "type" :=
              jsGet_updChildren_other _ _ "type" (by decide)
            have htxV : jsGet (updChildren (.obj fields)
                  (fixListWith (fun it p => fixInLexicalTree it tgt len rep p b)
                    (childrenArr (.obj fields)) pos).items) "text"
                = jsGet (.obj fields) "text" :=
              jsGet_updChildren_other _ _ "text" (by decide)
            have hrtV : jsGet (updChildren (.obj fields)
                  (fixListWith (fun it p => fixInLexicalTree it tgt len rep p b)
                    (childrenArr (.obj fields)) pos).items) "root"
                = jsGet (.obj fields) "root" :=
              jsGet_updChildren_other _ _ "root" (by decide)
            have hskipV : skipTypeNode (updChildren (.obj fields)
                  (fixListWith (fun it p => fixInLexicalTree it tgt len rep p b)
                    (childrenArr (.obj fields)) pos).items) = false :=
              (skipTypeNode_congr _ _ htyV).trans hskipF
            have hblkV : isBlockTag (updChildren (.obj fields)
                  (fixListWith (fun it p => fixInLexicalTree it tgt len rep p b)
                    (childrenArr (.obj fields)) pos).items) = true :=
              (isBlockTag_congr _ _ htyV).trans hblk
            have hmtV : nodeTextIf (updChildren (.obj fields)
                  (fixListWith (fun it p => fixInLexicalTree it tgt len rep p b)
                    (childrenArr (.obj fields)) pos).items) = none :=
              (nodeTextIf_congr _ _ htyV htxV).trans hmt
            have hchV : childrenArr (updChildren (.obj fields)
                  (fixListWith (fun it p => fixInLexicalTree it tgt len rep p b)
                    (childrenArr (.obj fields)) pos).items)
                = (fixListWith (fun it p => fixInLexicalTree it tgt len rep p b)
                    (childrenArr (.obj fields)) pos).items :=
              childrenArr_updChildren _ _ cs hcg
            have hupd : updChildren (.obj fields)
                  (fixListWith (fun it p => fixInLexicalTree it tgt len rep p b)
                    (childrenArr (.obj fields)) pos).items
                = .obj (setFieldAux "children"
                    (.arr (fixListWith (fun it p => fixInLexicalTree it tgt len rep p b)
                      (childrenArr (.obj fields)) pos).items) fields) := by
              unfold updChildren
              rw [hcg]
              rfl
            have hEv := extractRecursive_obj_eq
              (setFieldAux "children"
                (.arr (fixListWith (fun it p => fixInLexicalTree it tgt len rep p b)
                  (childrenArr (.obj fields)) pos).items) fields) b (hupd ▸ hskipV)
            rw [← hupd] at hEv
            simp only [hmtV, hchV, hblkV, Option.getD_none, List.nil_append,
              if_true] at hEv
            have hvaleq : (fixInLexicalTree (.obj fields) tgt len rep pos (b + 1)).val
                = updChildren (.obj fields)
                    (fixListWith (fun it p => fixInLexicalTree it tgt len rep p b)
                      (childrenArr (.obj fields)) pos).items := by
              rw [hfix]
            have hsplit := spliceAt_append_left
              (((childrenArr (.obj fields)).map (fun c => extractRecursive c b)).flatten)
              ['\n'] rep (tgt - pos) len (by omega)
            rw [hvaleq, hEv, hE, hsplit, hsp]
      · -- non-block generic node: children then the root detour
        rw [if_neg hblk] at hE hF hS
        rcases hroot : jsGet (.obj fields) "root" with _ | rt
        · -- no root field
          simp only [hroot, List.append_nil] at hE hS hF
          have hF2 : fixInLexicalTree (.obj fields) tgt len rep pos (b + 1)
              = (if (fixListWith (fun it p => fixInLexicalTree it tgt len rep p b)
                      (childrenArr (.obj fields)) pos).fixed = true
                 then ⟨updChildren (.obj fields)
                         (fixListWith (fun it p => fixInLexicalTree it tgt len rep p b)
                           (childrenArr (.obj fields)) pos).items, true,
                       (fixListWith (fun it p => fixInLexicalTree it tgt len rep p b)
                         (childrenArr (.obj fields)) pos).chars⟩
                 else ⟨.obj fields, false,
                       (fixListWith (fun it p => fixInLexicalTree it tgt len rep p b)
                         (childrenArr (.obj fields)) pos).chars⟩) := by
            rw [hF]
          constructor
          · intro hno
            have hno2 : ∀ st L, (st, L) ∈ spansListWith (fun it p => spansFrom it p b)
                (fun it => extractRecursive it b) (childrenArr (.obj fields)) pos →
                ¬(st ≤ tgt ∧ tgt < st + L) := by
              intro st L hm2
              exact hno st L (by rw [hS]; exact hm2)
            have hr := hlist.1 hno2
            rw [hF2, hr, hE]
            simp
          · intro st L hm hle hlt
            have hm' : (st, L) ∈ spansListWith (fun it p => spansFrom it p b)
                (fun it => extractRecursive it b) (childrenArr (.obj fields)) pos := by
              rw [hS] at hm; exact hm
            have hB := hlist.2 st L hm' hle hlt
            have hfix : fixInLexicalTree (.obj fields) tgt len rep pos (b + 1)
                = ⟨updChildren (.obj fields)
                     (fixListWith (fun it p => fixInLexicalTree it tgt len rep p b)
                       (childrenArr (.obj fields)) pos).items, true,
                   (fixListWith (fun it p => fixInLexicalTree it tgt len rep p b)
                     (childrenArr (.obj fields)) pos).chars⟩ := by
              rw [hF2, if_pos hB.1]
            refine ⟨by rw [hfix], ?_⟩
            intro hcont
            rcases hCA with hch0 | ⟨cs, hcg⟩
            · rw [hch0] at hm'
              simp [spansListWith] at hm'
            · have hsp := hB.2 hcont
              have htyV : jsGet (updChildren (.obj fields)
                    (fixListWith (fun it p => fixInLexicalTree it tgt len rep p b)
                      (childrenArr (.obj fields)) pos).items) "type"
                  = jsGet (.obj fields) "type" :=
                jsGet_updChildren_other _ _ "type" (by decide)
              have htxV : jsGet (updChildren (.obj fields)
                    (fixListWith (fun it p => fixInLexicalTree it tgt len rep p b)
                      (childrenArr (.obj fields)) pos).items) "text"
                  = jsGet (.obj fields) "text" :=
                jsGet_updChildren_other _ _ "text" (by decide)
              have hrtV : jsGet (updChildren (.obj fields)
                    (fixListWith (fun it p => fixInLexicalTree it tgt len rep p b)
                      (childrenArr (.obj fields)) pos).items) "root"
                  = jsGet (.obj fields) "root" :=
                jsGet_updChildren_other _ _ "root" (by decide)
              have hskipV : skipTypeNode (updChildren (.obj fields)
                    (fixListWith (fun it p => fixInLexicalTree it tgt len rep p b)
                      (childrenArr (.obj fields)) pos).items) = false :=
                (skipTypeNode_congr _ _ htyV).trans hskipF
              have hblkV : isBlockTag (updChildren (.obj fields)
                    (fixListWith (fun it p => fixInLexicalTree it tgt len rep p b)
                      (childrenArr (.obj fields)) pos).items) = false :=
                (isBlockTag_congr _ _ htyV).trans (by simpa using hblk)
              have hmtV : nodeTextIf (updChildren (.obj fields)
                    (fixListWith (fun it p => fixInLexicalTree it tgt len rep p b)
                      (childrenArr (.obj fields)) pos).items) = none :=
                (nodeTextIf_congr _ _ htyV htxV).trans hmt
              have hchV : childrenArr (updChildren (.obj fields)
                    (fixListWith (fun it p => fixInLexicalTree it tgt len rep p b)
                      (childrenArr (.obj fields)) pos).items)
                  = (fixListWith (fun it p => fixInLexicalTree it tgt len rep p b)
                      (childrenArr (.obj fields)) pos).items :=
                childrenArr_updChildren _ _ cs hcg
              have hupd : updChildren (.obj fields)
                    (fixListWith (fun it p => fixInLexicalTree it tgt len rep p b)
                      (childrenArr (.obj fields)) pos).items
                  = .obj (setFieldAux "children"
                      (.arr (fixListWith (fun it p => fixInLexicalTree it tgt len rep p b)
                        (childrenArr (.obj fields)) pos).items) fields) := by
                unfold updChildren
                rw [hcg]
                rfl
              have hEv := extractRecursive_obj_eq
                (setFieldAux "children"
                  (.arr (fixListWith (fun it p => fixInLexicalTree it tgt len rep p b)
                    (childrenArr (.obj fields)) pos).items) fields) b (hupd ▸ hskipV)
              rw [← hupd] at hEv
              rw [hrtV] at hEv
              simp only [hmtV, hchV, hblkV, hroot, Option.getD_none, List.nil_append,
                List.append_nil, Bool.false_eq_true, if_false] at hEv
              have hvaleq : (fixInLexicalTree (.obj fields) tgt len rep pos (b + 1)).val
                  = updChildren (.obj fields)
                      (fixListWith (fun it p => fixInLexicalTree it tgt len rep p b)
                        (childrenArr (.obj fields)) pos).items := by
                rw [hfix]
              rw [hvaleq, hEv, hE]
              exact hsp
        · -- root present
          simp only [hroot] at hE hS hF h3
          have hF2 : fixInLexicalTree (.obj fields) tgt len rep pos (b + 1)
              = (if (fixListWith (fun it p => fixInLexicalTree it tgt len rep p b)
                      (childrenArr (.obj fields)) pos).fixed = true
                 then ⟨updChildren (.obj fields)
                         (fixListWith (fun it p => fixInLexicalTree it tgt len rep p b)
                           (childrenArr (.obj fields)) pos).items, true,
                       (fixListWith (fun it p => fixInLexicalTree it tgt len rep p b)
                         (childrenArr (.obj fields)) pos).chars⟩
                 else
                   (if (fixInLexicalTree rt tgt len rep
                         (pos + (fixListWith (fun it p => fixInLexicalTree it tgt len rep p b)
                           (childrenArr (.obj fields)) pos).chars) b).fixed = true
                    then ⟨setField (.obj fields) "root"
                            (fixInLexicalTree rt tgt len rep
                              (pos + (fixListWith
                                (fun it p => fixInLexicalTree it tgt len rep p b)
                                (childrenArr (.obj fields)) pos).chars) b).val, true,
                          (fixListWith (fun it p => fixInLexicalTree it tgt len rep p b)
                            (childrenArr (.obj fields)) pos).chars
                          + (fixInLexicalTree rt tgt len rep
                              (pos + (fixListWith
                                (fun it p => fixInLexicalTree it tgt len rep p b)
                                (childrenArr (.obj fields)) pos).chars) b).chars⟩
                    else ⟨.obj fields, false,
                          (fixListWith (fun it p => fixInLexicalTree it tgt len rep p b)
                            (childrenArr (.obj fields)) pos).chars
                          + (fixInLexicalTree rt tgt len rep
                              (pos + (fixListWith
                                (fun it p => fixInLexicalTree it tgt len rep p b)
                                (childrenArr (.obj fields)) pos).chars) b).chars⟩)) := by
            rw [hF]
          constructor
          · intro hno
            have hno2 : ∀ st L, (st, L) ∈ spansListWith (fun it p => spansFrom it p b)
                (fun it => extractRecursive it b) (childrenArr (.obj fields)) pos →
                ¬(st ≤ tgt ∧ tgt < st + L) := by
              intro st L hm2
              exact hno st L (by rw [hS]; exact List.mem_append.mpr (Or.inl hm2))
            have hr := hlist.1 hno2
            have hnoR : ∀ st L, (st, L) ∈ spansFrom rt
                (pos + ((childrenArr (.obj fields)).map
                  (fun c => extractRecursive c b)).flatten.length) b →
                ¬(st ≤ tgt ∧ tgt < st + L) := by
              intro st L hm2
              exact hno st L (by rw [hS]; exact List.mem_append.mpr (Or.inr hm2))
            have hrr := (hnode rt
              (pos + ((childrenArr (.obj fields)).map
                (fun c => extractRecursive c b)).flatten.length) h3).1 hnoR
            rw [hF2, hr, hE]
            simp only [hrr, Bool.false_eq_true, if_false, List.length_append]
          · intro st L hm hle hlt
            rw [hS] at hm
            rcases List.mem_append.mp hm with hmc | hmr
            · -- the containing span is a child span
              have hB := hlist.2 st L hmc hle hlt
              have hfix : fixInLexicalTree (.obj fields) tgt len rep pos (b + 1)
                  = ⟨updChildren (.obj fields)
                       (fixListWith (fun it p => fixInLexicalTree it tgt len rep p b)
                         (childrenArr (.obj fields)) pos).items, true,
                     (fixListWith (fun it p => fixInLexicalTree it tgt len rep p b)
                       (childrenArr (.obj fields)) pos).chars⟩ := by
                rw [hF2, if_pos hB.1]
              refine ⟨by rw [hfix], ?_⟩
              intro hcont
              rcases hCA with hch0 | ⟨cs, hcg⟩
              · rw [hch0] at hmc
                simp [spansListWith] at hmc
              · have hbnd := spansListWith_bounds b
                  (fun n p st2 L2 h2 => spansFrom_bounds b n p st2 L2 h2)
                  (childrenArr (.obj fields)) pos st L hmc
                have hsp := hB.2 hcont
                have htyV : jsGet (updChildren (.obj fields)
                      (fixListWith (fun it p => fixInLexicalTree it tgt len rep p b)
                        (childrenArr (.obj fields)) pos).items) "type"
                    = jsGet (.obj fields) "type" :=
                  jsGet_updChildren_other _ _ "type" (by decide)
                have htxV : jsGet (updChildren (.obj fields)
                      (fixListWith (fun it p => fixInLexicalTree it tgt len rep p b)
                        (childrenArr (.obj fields)) pos).items) "text"
                    = jsGet (.obj fields) "text" :=
                  jsGet_updChildren_other _ _ "text" (by decide)
                have hrtV : jsGet (updChildren (.obj fields)
                      (fixListWith (fun it p => fixInLexicalTree it tgt len rep p b)
                        (childrenArr (.obj fields)) pos).items) "root"
                    = jsGet (.obj fields) "root" :=
                  jsGet_updChildren_other _ _ "root" (by decide)
                have hskipV : skipTypeNode (updChildren (.obj fields)
                      (fixListWith (fun it p => fixInLexicalTree it tgt len rep p b)
                        (childrenArr (.obj fields)) pos).items) = false :=
                  (skipTypeNode_congr _ _ htyV).trans hskipF
                have hblkV : isBlockTag (updChildren (.obj fields)
                      (fixListWith (fun it p => fixInLexicalTree it tgt len rep p b)
                        (childrenArr (.obj fields)) pos).items) = false :=
                  (isBlockTag_congr _ _ htyV).trans (by simpa using hblk)
                have hmtV : nodeTextIf (updChildren (.obj fields)
                      (fixListWith (fun it p => fixInLexicalTree it tgt len rep p b)
                        (childrenArr (.obj fields)) pos).items) = none :=
                  (nodeTextIf_congr _ _ htyV htxV).trans hmt
                have hchV : childrenArr (updChildren (.obj fields)
                      (fixListWith (fun it p => fixInLexicalTree it tgt len rep p b)
                        (childrenArr (.obj fields)) pos).items)
                    = (fixListWith (fun it p => fixInLexicalTree it tgt len rep p b)
                        (childrenArr (.obj fields)) pos).items :=
                  childrenArr_updChildren _ _ cs hcg
                have hupd : updChildren (.obj fields)
                      (fixListWith (fun it p => fixInLexicalTree it tgt len rep p b)
                        (childrenArr (.obj fields)) pos).items
                    = .obj (setFieldAux "children"
                        (.arr (fixListWith (fun it p => fixInLexicalTree it tgt len rep p b)
                          (childrenArr (.obj fields)) pos).items) fields) := by
                  unfold updChildren
                  rw [hcg]
                  rfl
                have hEv := extractRecursive_obj_eq
                  (setFieldAux "children"
                    (.arr (fixListWith (fun it p => fixInLexicalTree it tgt len rep p b)
                      (childrenArr (.obj fields)) pos).items) fields) b (hupd ▸ hskipV)
                rw [← hupd] at hEv
                rw [hrtV] at hEv
                simp only [hmtV, hchV, hblkV, hroot, Option.getD_none, List.nil_append,
                  Bool.false_eq_true, if_false] at hEv
                have hvaleq : (fixInLexicalTree (.obj fields) tgt len rep pos (b + 1)).val
                    = updChildren (.obj fields)
                        (fixListWith (fun it p => fixInLexicalTree it tgt len rep p b)
                          (childrenArr (.obj fields)) pos).items := by
                  rw [hfix]
                have hsplit := spliceAt_append_left
                  (((childrenArr (.obj fields)).map (fun c => extractRecursive c b)).flatten)
                  (extractRecursive rt b) rep (tgt - pos) len (by omega)
                rw [hvaleq, hEv, hE, hsplit, hsp]
            · -- the containing span lies under the root
              have hbR := spansFrom_bounds b rt
                (pos + ((childrenArr (.obj fields)).map
                  (fun c => extractRecursive c b)).flatten.length) st L hmr
              have hnoc : ∀ st2 L2, (st2, L2) ∈ spansListWith (fun it p => spansFrom it p b)
                  (fun it => extractRecursive it b) (childrenArr (.obj fields)) pos →
                  ¬(st2 ≤ tgt ∧ tgt < st2 + L2) := by
                intro st2 L2 hm2 hcontra
                have hb2 := spansListWith_bounds b
                  (fun n p st3 L3 h3b => spansFrom_bounds b n p st3 L3 h3b)
                  (childrenArr (.obj fields)) pos st2 L2 hm2
                omega
              have hr := hlist.1 hnoc
              have hBr := (hnode rt
                (pos + ((childrenArr (.obj fields)).map
                  (fun c => extractRecursive c b)).flatten.length) h3).2 st L hmr hle hlt
              have hfix : fixInLexicalTree (.obj fields) tgt len rep pos (b + 1)
                  = ⟨setField (.obj fields) "root"
                       (fixInLexicalTree rt tgt len rep
                         (pos + ((childrenArr (.obj fields)).map
                           (fun c => extractRecursive c b)).flatten.length) b).val, true,
                     ((childrenArr (.obj fields)).map
                       (fun c => extractRecursive c b)).flatten.length
                     + (fixInLexicalTree rt tgt len rep
                         (pos + ((childrenArr (.obj fields)).map
                           (fun c => extractRecursive c b)).flatten.length) b).chars⟩ := by
                rw [hF2, hr]
                simp only [hBr.1, Bool.false_eq_true, if_false, eq_self_iff_true, if_true]
              refine ⟨by rw [hfix], ?_⟩
              intro hcont
              have hspR := hBr.2 hcont
              have htyV : jsGet (setField (.obj fields) "root"
                    (fixInLexicalTree rt tgt len rep
                      (pos + ((childrenArr (.obj fields)).map
                        (fun c => extractRecursive c b)).flatten.length) b).val) "type"
                  = jsGet (.obj fields) "type" :=
                jsGet_setField_other _ "root" "type" _ (by decide)
              have htxV : jsGet (setField (.obj fields) "root"
                    (fixInLexicalTree rt tgt len rep
                      (pos + ((childrenArr (.obj fields)).map
                        (fun c => extractRecursive c b)).flatten.length) b).val) "text"
                  = jsGet (.obj fields) "text" :=
                jsGet_setField_other _ "root" "text" _ (by decide)
              have hchVg : jsGet (setField (.obj fields) "root"
                    (fixInLexicalTree rt tgt len rep
                      (pos + ((childrenArr (.obj fields)).map
                        (fun c => extractRecursive c b)).flatten.length) b).val) "children"
                  = jsGet (.obj fields) "children" :=
                jsGet_setField_other _ "root" "children" _ (by decide)
              have hskipV : skipTypeNode (setField (.obj fields) "root"
                    (fixInLexicalTree rt tgt len rep
                      (pos + ((childrenArr (.obj fields)).map
                        (fun c => extractRecursive c b)).flatten.length) b).val) = false :=
                (skipTypeNode_congr _ _ htyV).trans hskipF
              have hblkV : isBlockTag (setField (.obj fields) "root"
                    (fixInLexicalTree rt tgt len rep
                      (pos + ((childrenArr (.obj fields)).map
                        (fun c => extractRecursive c b)).flatten.length) b).val) = false :=
                (isBlockTag_congr _ _ htyV).trans (by simpa using hblk)
              have hmtV : nodeTextIf (setField (.obj fields) "root"
                    (fixInLexicalTree rt tgt len rep
                      (pos + ((childrenArr (.obj fields)).map
                        (fun c => extractRecursive c b)).flatten.length) b).val) = none :=
                (nodeTextIf_congr _ _ htyV htxV).trans hmt
              have hchV : childrenArr (setField (.obj fields) "root"
                    (fixInLexicalTree rt tgt len rep
                      (pos + ((childrenArr (.obj fields)).map
                        (fun c => extractRecursive c b)).flatten.length) b).val)
                  = childrenArr (.obj fields) :=
                childrenArr_congr _ _ hchVg
              have hrtV : jsGet (setField (.obj fields) "root"
                    (fixInLexicalTree rt tgt len rep
                      (pos + ((childrenArr (.obj fields)).map
                        (fun c => extractRecursive c b)).flatten.length) b).val) "root"
                  = some (fixInLexicalTree rt tgt len rep
                      (pos + ((childrenArr (.obj fields)).map
                        (fun c => extractRecursive c b)).flatten.length) b).val :=
                jsGet_setField_same (.obj fields) "root" _ rt hroot
              have hupd : setField (.obj fields) "root"
                    (fixInLexicalTree rt tgt len rep
                      (pos + ((childrenArr (.obj fields)).map
                        (fun c => extractRecursive c b)).flatten.length) b).val
                  = .obj (setFieldAux "root"
                      (fixInLexicalTree rt tgt len rep
                        (pos + ((childrenArr (.obj fields)).map
                          (fun c => extractRecursive c b)).flatten.length) b).val fields) := rfl
              have hEv := extractRecursive_obj_eq
                (setFieldAux "root"
                  (fixInLexicalTree rt tgt len rep
                    (pos + ((childrenArr (.obj fields)).map
                      (fun c => extractRecursive c b)).flatten.length) b).val fields) b
                (hupd ▸ hskipV)
              rw [← hupd] at hEv
              rw [hrtV] at hEv
              simp only [hmtV, hchV, hblkV, Option.getD_none, List.nil_append,
                Bool.false_eq_true, if_false] at hEv
              have hvaleq : (fixInLexicalTree (.obj fields) tgt len rep pos (b + 1)).val
                  = setField (.obj fields) "root"
                      (fixInLexicalTree rt tgt len rep
                        (pos + ((childrenArr (.obj fields)).map
                          (fun c => extractRecursive c b)).flatten.length) b).val := by
                rw [hfix]
              have hsplit := spliceAt_append_right
                (((childrenArr (.obj fields)).map (fun c => extractRecursive c b)).flatten)
                (extractRecursive rt b) rep (tgt - pos) len (by omega)
              have hidx : (tgt - pos)
                    - (((childrenArr (.obj fields)).map
                        (fun c => extractRecursive c b)).flatten).length
                  = tgt - (pos + ((childrenArr (.obj fields)).map
                      (fun c => extractRecursive c b)).flatten.length) := by omega
              rw [hvaleq, hEv, hE, hsplit, hidx, hspR]
    · -- text-node case: the node is a leaf (no children, no root)
      rw [hmt] at hE hS hF h1
      have htyO : jsGet (.obj fields) "type" = some (.str (jstr "text")) :=
        (nodeTextIf_some _ s hmt).1
      have htxO : jsGet (.obj fields) "text" = some (.str s) :=
        (nodeTextIf_some _ s hmt).2
      have hblk : isBlockTag (.obj fields) = false := isBlockTag_of_type_text _ htyO
      simp only [Option.isNone_some, Bool.false_or, Bool.and_eq_true] at h1
      obtain ⟨hchE, hrtN⟩ := h1
      have hch : childrenArr (.obj fields) = [] := by
        cases hcc : childrenArr (.obj fields) with
        | nil => rfl
        | cons a l => rw [hcc] at hchE; simp [List.isEmpty] at hchE
      have hroot : jsGet (.obj fields) "root" = none := by
        cases hrr : jsGet (.obj fields) "root" with
        | none => rfl
        | some r => rw [hrr] at hrtN; simp at hrtN
      simp only [hch, hroot, hblk, Option.getD_some, List.map_nil, List.flatten_nil,
        List.append_nil, if_false, Bool.false_eq_true] at hE hS hF
      -- now hE : extract = s, hS : spans = [(pos, s.length)], hF : fix = if ... then ... else ...
      constructor
      · intro hno
        have hnc : ¬(pos ≤ tgt ∧ tgt < pos + s.length) := by
          refine hno pos s.length ?_
          rw [hS]
          simp [spansListWith]
        have hcond : ¬((decide (pos ≤ tgt) && decide (tgt < pos + s.length)) = true) := by
          simpa [Bool.and_eq_true, decide_eq_true_eq] using hnc
        rw [hF, if_neg hcond, hE]
      · intro st L hm hle hlt
        rw [hS] at hm
        simp [spansListWith] at hm
        obtain ⟨hst, hL⟩ := hm
        rw [hst] at hle
        rw [hst, hL] at hlt
        have hcond : ((decide (pos ≤ tgt) && decide (tgt < pos + s.length)) = true) := by
          simp [hle, hlt]
        constructor
        · rw [hF, if_pos hcond]
        · intro _
          rw [hF, if_pos hcond, hE]
          have htyV : jsGet (setField (.obj fields) "text"
                (.str (spliceAt s (tgt - pos) len rep))) "type"
              = some (.str (jstr "text")) :=
            (jsGet_setField_other (.obj fields) "text" "type" _ (by decide)).trans htyO
          have htxV : jsGet (setField (.obj fields) "text"
                (.str (spliceAt s (tgt - pos) len rep))) "text"
              = some (.str (spliceAt s (tgt - pos) len rep)) :=
            jsGet_setField_same (.obj fields) "text" _ (.str s) htxO
          have hmtV : nodeTextIf (setField (.obj fields) "text"
                (.str (spliceAt s (tgt - pos) len rep)))
              = some (spliceAt s (tgt - pos) len rep) := by
            simp [nodeTextIf, nodeTypeIs, htyV, htxV, jstr]
          have hskipV : skipTypeNode (setField (.obj fields) "text"
                (.str (spliceAt s (tgt - pos) len rep))) = false := by
            unfold skipTypeNode
            rw [htyV]
            decide
          have hblkV : isBlockTag (setField (.obj fields) "text"
                (.str (spliceAt s (tgt - pos) len rep))) = false :=
            isBlockTag_of_type_text _ htyV
          have hchV : childrenArr (setField (.obj fields) "text"
                (.str (spliceAt s (tgt - pos) len rep))) = [] :=
            (childrenArr_congr _ (.obj fields)
              (jsGet_setField_other (.obj fields) "text" "children" _ (by decide))).trans hch
          have hrtV : jsGet (setField (.obj fields) "text"
                (.str (spliceAt s (tgt - pos) len rep))) "root" = none :=
            (jsGet_setField_other (.obj fields) "text" "root" _ (by decide)).trans hroot
          have hEv := extractRecursive_obj_eq
            (setFieldAux "text" (.str (spliceAt s (tgt - pos) len rep)) fields) b hskipV
          rw [show (JsonVal.obj (setFieldAux "text"
              (.str (spliceAt s (tgt - pos) len rep)) fields))
              = setField (.obj fields) "text" (.str (spliceAt s (tgt - pos) len rep)) from rfl]
            at hEv
          rw [hmtV, hchV, hblkV, hrtV] at hEv
          simp only [Option.getD_some, List.map_nil, List.flatten_nil, List.append_nil,
            if_false, Bool.false_eq_true] at hEv
          exact hEv

theorem fixExtract_main (tgt len : Nat) (rep : JStr) :
    ∀ (b : Nat) (node : JsonVal) (pos : Nat), leafTextOK node b = true →
    ((∀ st L, (st, L) ∈ spansFrom node pos b → ¬(st ≤ tgt ∧ tgt < st + L)) →
      fixInLexicalTree node tgt len rep pos b
        = ⟨node, false, (extractRecursive node b).length⟩) ∧
    (∀ st L, (st, L) ∈ spansFrom node pos b → st ≤ tgt → tgt < st + L →
      (fixInLexicalTree node tgt len rep pos b).fixed = true ∧
      (tgt + len ≤ st + L →
        extractRecursive (fixInLexicalTree node tgt len rep pos b).val b
          = spliceAt (extractRecursive node b) (tgt - pos) len rep)) := by
  intro b
  induction b with
  | zero =>
    intro node pos _
    constructor
    · intro _
      rfl
    · intro st L h
      simp [spansFrom] at h
  | succ b ih =>
    intro node pos hleaf
    cases node with
    | obj fields => exact fixExtract_obj b tgt len rep ih fields pos hleaf
    | arr items =>
      have hE : extractRecursive (.arr items) (b + 1)
          = (items.map (fun it => extractRecursive it b)).flatten := rfl
      have hS : spansFrom (.arr items) pos (b + 1)
          = spansListWith (fun it p => spansFrom it p b)
              (fun it => extractRecursive it b) items pos := rfl
      have hF : fixInLexicalTree (.arr items) tgt len rep pos (b + 1)
          = (if (fixListWith (fun it p => fixInLexicalTree it tgt len rep p b)
                  items pos).fixed = true
             then ⟨.arr (fixListWith (fun it p => fixInLexicalTree it tgt len rep p b)
                     items pos).items, true,
                   (fixListWith (fun it p => fixInLexicalTree it tgt len rep p b)
                     items pos).chars⟩
             else ⟨.arr items, false,
                   (fixListWith (fun it p => fixInLexicalTree it tgt len rep p b)
                     items pos).chars⟩) := rfl
      have hchl : ∀ it ∈ items, leafTextOK it b = true := by
        intro it hit
        have hleaf0 : items.all (fun it => leafTextOK it b) = true := hleaf
        simpa using List.all_eq_true.mp hleaf0 it hit
      have hlist := fixListWith_main b tgt len rep ih items pos hchl
      constructor
      · intro hno
        have hno2 : ∀ st L, (st, L) ∈ spansListWith (fun it p => spansFrom it p b)
            (fun it => extractRecursive it b) items pos → ¬(st ≤ tgt ∧ tgt < st + L) := by
          intro st L hm2
          exact hno st L (by rw [hS]; exact hm2)
        have hr := hlist.1 hno2
        rw [hF, hr, hE]
        simp
      · intro st L hm hle hlt
        have hm' : (st, L) ∈ spansListWith (fun it p => spansFrom it p b)
            (fun it => extractRecursive it b) items pos := by
          rw [hS] at hm; exact hm
        have hB := hlist.2 st L hm' hle hlt
        have hfix : fixInLexicalTree (.arr items) tgt len rep pos (b + 1)
            = ⟨.arr (fixListWith (fun it p => fixInLexicalTree it tgt len rep p b)
                 items pos).items, true,
               (fixListWith (fun it p => fixInLexicalTree it tgt len rep p b)
                 items pos).chars⟩ := by
          rw [hF, if_pos hB.1]
        refine ⟨by rw [hfix], ?_⟩
        intro hcont
        have hsp := hB.2 hcont
        have hEv : extractRecursive
            (.arr (fixListWith (fun it p => fixInLexicalTree it tgt len rep p b)
              items pos).items) (b + 1)
            = ((fixListWith (fun it p => fixInLexicalTree it tgt len rep p b)
                items pos).items.map (fun it => extractRecursive it b)).flatten := rfl
        rw [hfix]
        rw [hEv, hE]
        exact hsp
    | str s =>
      constructor
      · intro _
        have h1 : fixInLexicalTree (.str s) tgt len rep pos (b + 1)
            = if jsFalsy (.str s) = true then ⟨.str s, false, 0⟩
              else ⟨.str s, false, 0⟩ := rfl
        have h2 : extractRecursive (.str s) (b + 1)
            = if jsFalsy (.str s) = true then [] else [] := rfl
        rw [h1, h2]
        simp
      · intro st L hm
        have h3 : spansFrom (.str s) pos (b + 1)
            = if jsFalsy (.str s) = true then [] else [] := rfl
        rw [h3] at hm
        simp at hm
    | num n =>
      constructor
      · intro _
        have h1 : fixInLexicalTree (.num n) tgt len rep pos (b + 1)
            = if jsFalsy (.num n) = true then ⟨.num n, false, 0⟩
              else ⟨.num n, false, 0⟩ := rfl
        have h2 : extractRecursive (.num n) (b + 1)
            = if jsFalsy (.num n) = true then [] else [] := rfl
        rw [h1, h2]
        simp
      · intro st L hm
        have h3 : spansFrom (.num n) pos (b + 1)
            = if jsFalsy (.num n) = true then [] else [] := rfl
        rw [h3] at hm
        simp at hm
    | bool b2 =>
      constructor
      · intro _
        have h1 : fixInLexicalTree (.bool b2) tgt len rep pos (b + 1)
            = if jsFalsy (.bool b2) = true then ⟨.bool b2, false, 0⟩
              else ⟨.bool b2, false, 0⟩ := rfl
        have h2 : extractRecursive (.bool b2) (b + 1)
            = if jsFalsy (.bool b2) = true then [] else [] := rfl
        rw [h1, h2]
        simp
      · intro st L hm
        have h3 : spansFrom (.bool b2) pos (b + 1)
            = if jsFalsy (.bool b2) = true then [] else [] := rfl
        rw [h3] at hm
        simp at hm
    | null =>
      constructor
      · intro _
        rfl
      · intro st L hm
        have h3 : spansFrom .null pos (b + 1)
            = if jsFalsy .null = true then [] else [] := rfl
        rw [h3] at hm
        simp at hm

/-- C2: the offset re-walk (`fixInLexicalTree`) mirrors the extraction
walk (`extractRecursive`) — as amended, on trees whose text nodes are
leaves (`leafTextOK`, the shape real Lexical documents have): when no
extraction-attributed text-node span contains the target offset the walk
reports exactly the extraction's character count and leaves the node
untouched, and when the span `[st, st+L)` of some text node contains the
target the walk reports `fixed` and (for an in-span replacement) the
re-extraction of the mutated subtree equals the extraction with the
replacement spliced in at the same character position, so the mutation
lands on the node and position the walker attributed the characters to.
For text nodes that themselves carry children the two walks diverge
(`claim_C2_counterexample`). -/
theorem claim_C2 (tgt len : Nat) (rep : JStr) (b : Nat) (node : JsonVal) (pos : Nat)
    (hleaf : leafTextOK node b = true) :
    ((∀ st L, (st, L) ∈ spansFrom node pos b → ¬(st ≤ tgt ∧ tgt < st + L)) →
      fixInLexicalTree node tgt len rep pos b
        = ⟨node, false, (extractRecursive node b).length⟩) ∧
    (∀ st L, (st, L) ∈ spansFrom node pos b → st ≤ tgt → tgt < st + L →
      (fixInLexicalTree node tgt len rep pos b).fixed = true ∧
      (tgt + len ≤ st + L →
        extractRecursive (fixInLexicalTree node tgt len rep pos b).val b
          = spliceAt (extractRecursive node b) (tgt - pos) len rep)) :=
  fixExtract_main tgt len rep b node pos hleaf

/-- Witness for C2 at a concrete leaf text node: the span `(0, 3)` of
`\x7btype: "text", text: "abc"\x7d` contains offset 1; the re-walk fixes it
and re-extraction equals the splice. -/
theorem claim_C2_witness :
    leafTextOK (mkTextNode "abc") 1 = true ∧
    (0, 3) ∈ spansFrom (mkTextNode "abc") 0 1 ∧
    (fixInLexicalTree (mkTextNode "abc") 1 1 (jstr "X") 0 1).fixed = true ∧
    extractRecursive (fixInLexicalTree (mkTextNode "abc") 1 1 (jstr "X") 0 1).val 1
      = spliceAt (extractRecursive (mkTextNode "abc") 1) (1 - 0) 1 (jstr "X") := by
  have h := (claim_C2 1 1 (jstr "X") 1 (mkTextNode "abc") 0 (by decide)).2 0 3
    (by decide) (by decide) (by decide)
  exact ⟨by decide, by decide, h.1, h.2 (by decide)⟩

/-- Counterexample to the literal C2: for a text node that carries a
child text node, extraction counts both its own text and the child text
(3 chars) while the re-walk counts only its own text (2 chars), and a
fix at flat offset 2 lands on a different node than the one extraction
attributed the character to: re-extraction gives "abXYd", not the
in-place splice "abYcd". -/
theorem claim_C2_counterexample :
    extractRecursive nonLeafTree 51 = jstr "abXcd" ∧
    fixInLexicalTree nonLeafTextNode 2 1 (jstr "Y") 0 51
      = ⟨nonLeafTextNode, false, 2⟩ ∧
    (extractRecursive nonLeafTextNode 51).length = 3 ∧
    (fixInLexicalTree nonLeafTree 2 1 (jstr "Y") 0 51).fixed = true ∧
    extractRecursive (fixInLexicalTree nonLeafTree 2 1 (jstr "Y") 0 51).val 51
      = jstr "abXYd" ∧
    spliceAt (extractRecursive nonLeafTree 51) 2 1 (jstr "Y") = jstr "abYcd" := by
  exact ⟨by decide, rfl, by decide, by decide, by decide, by decide⟩
